import Mathlib

/-! Shallow embedding of `src/term.py`, a minimal VT100 terminal buffer
emulator.  The machine state, cursor motion, scrolling, escape-sequence
dispatch table and the incremental `append` driver are translated from the
source.  Python exceptions (`TypeError`, `IndexError`) are modelled by
`Option`, with `none` meaning the call raises; Python's negative list
indexing, `del`, `insert` and the falsy-zero `or` are modelled explicitly.
Input is modelled at the text (character) level; the byte-to-text decode
step in `append` uses `errors='replace'` and never fails, so it is outside
the embedded state machine. -/

/-- Terminal state: `buf` is the `rows × cols` character grid (row-major,
`self.buf`), `scroll` the `(top, bottom)` scroll region, `(row, col)` the
1-based cursor, `pending` the residue carried between `append` calls. -/
structure Term where
  cols : Nat
  rows : Nat
  scroll : Int × Int
  row : Int
  col : Int
  buf : List (List Char)
  pending : List Char
deriving DecidableEq

/-- Python list index resolution: a non-negative index must be in range, a
negative index counts from the end; `none` models `IndexError`. -/
def pyIdx (len : Nat) (i : Int) : Option Nat :=
  if 0 ≤ i ∧ i < (len : Int) then some i.toNat
  else if -(len : Int) ≤ i ∧ i < 0 then some (i + len).toNat
  else none

/-- Python `l[i]`. -/
def pyGet {α : Type} (l : List α) (i : Int) : Option α :=
  (pyIdx l.length i).bind fun n => l.get? n

/-- Python `l[i] = v`. -/
def pySet {α : Type} (l : List α) (i : Int) (v : α) : Option (List α) :=
  (pyIdx l.length i).map fun n => l.set n v

/-- Python `del l[i]`. -/
def pyDel {α : Type} (l : List α) (i : Int) : Option (List α) :=
  (pyIdx l.length i).map fun n => l.eraseIdx n

/-- Python `l.insert(i, v)`: a negative index counts from the end and the
result is clamped into `[0, len]`; never raises. -/
def pyInsert {α : Type} (l : List α) (i : Int) (v : α) : List α :=
  let j : Int := if i < 0 then i + l.length else i
  let k : Nat := if j < 0 then 0 else min j.toNat l.length
  l.insertIdx k v

/-- Python `x or 1` on an integer: zero is falsy and collapses to 1. -/
def pyOr1 (x : Int) : Int := if x = 0 then 1 else x

/-- The loop body of `Terminal.del_lines`: `num` times, `del
self.buf[row - 1]` then `self.buf.insert(self.scroll[1] - 1, blank)`. -/
def delLoop (r bot : Int) (cols : Nat) : Nat → List (List Char) → Option (List (List Char))
  | 0, buf => some buf
  | n + 1, buf =>
    match pyDel buf (r - 1) with
    | none => none
    | some b1 => delLoop r bot cols n (pyInsert b1 (bot - 1) (List.replicate cols ' '))

/-- `Terminal.del_lines(num, row)`; `row = none` models the Python default
`row=None`, which falls back to the cursor row. -/
def Terminal.del_lines (t : Term) (num : Nat) (row : Option Int) : Option Term :=
  (delLoop (row.getD t.row) t.scroll.2 t.cols num t.buf).map fun b => { t with buf := b }

/-- The column half of `Terminal.move`'s shared normalization block:
column wrap forward (`col > cols`), then column wrap backward
(`col < 1`). -/
def wrapCol (t : Term) (r0 c0 : Int) : Int × Int :=
  let p1 := if c0 > (t.cols : Int) then (r0 + 1, (1 : Int)) else (r0, c0)
  if p1.2 < 1 then (p1.1 - 1, (t.cols : Int)) else p1

/-- The row half of the normalization: clamp to the scroll top, and the
scroll-trigger at the scroll bottom. -/
def moveNorm (t : Term) (r0 c0 : Int) : Option Term :=
  let p2 := wrapCol t r0 c0
  let r3 := if p2.1 < t.scroll.1 then t.scroll.1 else p2.1
  if r3 > t.scroll.2 then
    (Terminal.del_lines t 1 (some (t.scroll.1 - 1))).map fun t' =>
      { t' with row := t.scroll.2, col := p2.2 }
  else some { t with row := r3, col := p2.2 }

/-- `Terminal.move(row, col, rel)`.  In the `rel` branch Python computes
`self.row + row or 1` / `self.col + col or 1`; if either argument is `None`
there, `int + None` raises `TypeError` (modelled by `none`); a `None`
coordinate in the absolute branch keeps the current value. -/
def Terminal.move (t : Term) (row col : Option Int) (rel : Bool) : Option Term :=
  if rel then
    match row, col with
    | some dr, some dc => moveNorm t (pyOr1 (t.row + dr)) (pyOr1 (t.col + dc))
    | _, _ => none
  else moveNorm t (row.getD t.row) (col.getD t.col)

/-- `Terminal.rel(row, col)` = `move(row, col, rel=True)`. -/
def Terminal.rel (t : Term) (row col : Option Int) : Option Term :=
  Terminal.move t row col true

/-- One character of `Terminal.puts`: `self.buf[self.row-1][self.col-1] = c`,
then if `move`, `self.move(self.row, self.col + 1)`. -/
def putc (t : Term) (c : Char) (mv : Bool) : Option Term :=
  match pyGet t.buf (t.row - 1) with
  | none => none
  | some rowl =>
    match pySet rowl (t.col - 1) c with
    | none => none
    | some rowl' =>
      match pySet t.buf (t.row - 1) rowl' with
      | none => none
      | some buf' =>
        let t' := { t with buf := buf' }
        if mv then Terminal.move t' (some t'.row) (some (t'.col + 1)) false
        else some t'

/-- `Terminal.puts(s, move)`: write each character in turn. -/
def Terminal.puts (t : Term) (s : List Char) (mv : Bool) : Option Term :=
  match s with
  | [] => some t
  | c :: cs =>
    match putc t c mv with
    | none => none
    | some t' => Terminal.puts t' cs mv

/-- Inner loop of `Terminal.erase`: for `col in range(c, c + n)`:
`self.move(row, col); self.puts(' ')`. -/
def eraseCols (r : Int) : Int → Nat → Term → Option Term
  | _, 0, t => some t
  | c, n + 1, t =>
    match Terminal.move t (some r) (some c) false with
    | none => none
    | some t1 =>
      match Terminal.puts t1 [' '] true with
      | none => none
      | some t2 => eraseCols r (c + 1) n t2

/-- Outer loop of `Terminal.erase`: for `row in range(r, r + n)` run the
column loop over `range(c1, c2)`. -/
def eraseRows (c1 c2 : Int) : Int → Nat → Term → Option Term
  | _, 0, t => some t
  | r, n + 1, t =>
    match eraseCols r c1 ((c2 - c1).toNat) t with
    | none => none
    | some t1 => eraseRows c1 c2 (r + 1) n t1

/-- `Terminal.erase(start, end)`: blank the half-open rectangle by cursor
moves and writes, then restore the saved cursor. -/
def Terminal.erase (t : Term) (s e : Int × Int) : Option Term :=
  (eraseRows s.2 e.2 s.1 ((e.1 - s.1).toNat) t).map fun t1 =>
    { t1 with row := t.row, col := t.col }

/-- `VT100.set_scroll(start, end)`. -/
def Terminal.set_scroll (t : Term) (a b : Int) : Term :=
  { t with scroll := (a, b) }

/-- `Terminal.reset()`: fresh all-blank grid. -/
def Terminal.reset (t : Term) : Term :=
  { t with buf := List.replicate t.rows (List.replicate t.cols ' ') }

/-- `Terminal.dump()`: every row followed by one line break. -/
def Terminal.dump (t : Term) : List Char :=
  (t.buf.map (fun r => r ++ ['\n'])).flatten

/-- The escape introducer `Terminal.ESCAPE`. -/
def ESC : Char := '\x1b'

/-- Digit run to integer (the `int(...)` of `intgroups`). -/
def digitsToInt (ds : List Char) : Int :=
  ds.foldl (fun acc c => acc * 10 + ((c.toNat : Int) - 48)) 0

/-- Anchored match of the regex `\[(\d+)X` (for a fixed final letter `X`)
against the lookahead window: returns the captured integer and the length
of the matched text. -/
def matchNumLetter (ch : Char) (ctx : List Char) : Option (Int × Nat) :=
  match ctx with
  | '[' :: rest =>
    let ds := rest.takeWhile Char.isDigit
    if ds.isEmpty then none
    else
      match rest.drop ds.length with
      | c :: _ => if c = ch then some (digitsToInt ds, 2 + ds.length) else none
      | [] => none
  | _ => none

/-- Anchored match of `\[(\d+);(\d+)X` for a final letter drawn from
`fins` (`[Hf]` or `r`): both captures and the matched length. -/
def matchNumPair (fins : List Char) (ctx : List Char) : Option (Int × Int × Nat) :=
  match ctx with
  | '[' :: rest =>
    let d1 := rest.takeWhile Char.isDigit
    if d1.isEmpty then none
    else
      match rest.drop d1.length with
      | ';' :: r2 =>
        let d2 := r2.takeWhile Char.isDigit
        if d2.isEmpty then none
        else
          match r2.drop d2.length with
          | c :: _ =>
            if c ∈ fins then some (digitsToInt d1, digitsToInt d2, 3 + d1.length + d2.length)
            else none
          | [] => none
      | _ => none
  | _ => none

/-- Anchored match of `\[\?(\d+)h` (a no-op rule): matched length only. -/
def matchPrivateH (ctx : List Char) : Option Nat :=
  match ctx with
  | '[' :: '?' :: rest =>
    let ds := rest.takeWhile Char.isDigit
    if ds.isEmpty then none
    else
      match rest.drop ds.length with
      | c :: _ => if c = 'h' then some (3 + ds.length) else none
      | [] => none
  | _ => none

/-- Anchored match of `\[([\d;]+)?m` (attribute no-op): matched length.
Since `m` is neither a digit nor `;`, the greedy optional group matches
exactly the maximal digit-or-semicolon run. -/
def matchColorM (ctx : List Char) : Option Nat :=
  match ctx with
  | '[' :: rest =>
    let ds := rest.takeWhile fun c => c.isDigit || c = ';'
    match rest.drop ds.length with
    | c :: _ => if c = 'm' then some (2 + ds.length) else none
    | [] => none
  | _ => none

/-- Anchored match of an escaped literal pattern (the `SIMPLE` table). -/
def matchLit (s : List Char) (ctx : List Char) : Option Nat :=
  if ctx.take s.length = s then some s.length else none

/-- The effect half of each `(pattern, effect)` rule in `VT100.__init__`. -/
inductive Eff where
  | relUp (n : Int)
  | relDown (n : Int)
  | relRight (n : Int)
  | relLeft (n : Int)
  | moveTo (r c : Int)
  | setScroll (a b : Int)
  | delN (n : Int)
  | eraseToEnd
  | noop
  | simpleUp
  | simpleDown
  | simpleRight
  | simpleLeft
  | home
  | clear
  | eraseLine
  | delLine
deriving DecidableEq

/-- The ordered dispatch table `self.control` (the `REGEX` rules followed by
the `SIMPLE` rules) as a list of matchers against the lookahead window. -/
def controlRules : List (List Char → Option (Eff × Nat)) :=
  [ fun ctx => (matchNumLetter 'A' ctx).map fun p => (Eff.relUp p.1, p.2),
    fun ctx => (matchNumLetter 'B' ctx).map fun p => (Eff.relDown p.1, p.2),
    fun ctx => (matchNumLetter 'C' ctx).map fun p => (Eff.relRight p.1, p.2),
    fun ctx => (matchNumLetter 'D' ctx).map fun p => (Eff.relLeft p.1, p.2),
    fun ctx => (matchNumPair ['H', 'f'] ctx).map fun p => (Eff.moveTo p.1 p.2.1, p.2.2),
    fun ctx => (matchNumPair ['r'] ctx).map fun p => (Eff.setScroll p.1 p.2.1, p.2.2),
    fun ctx => (matchNumLetter 'M' ctx).map fun p => (Eff.delN p.1, p.2),
    fun ctx => (matchLit ['[', '0', '?', 'J'] ctx).map fun n => (Eff.eraseToEnd, n),
    fun ctx => (matchPrivateH ctx).map fun n => (Eff.noop, n),
    fun ctx => (matchColorM ctx).map fun n => (Eff.noop, n),
    fun ctx => (matchLit ['[', 'A'] ctx).map fun n => (Eff.simpleUp, n),
    fun ctx => (matchLit ['[', 'B'] ctx).map fun n => (Eff.simpleDown, n),
    fun ctx => (matchLit ['[', 'C'] ctx).map fun n => (Eff.simpleRight, n),
    fun ctx => (matchLit ['[', 'D'] ctx).map fun n => (Eff.simpleLeft, n),
    fun ctx => (matchLit ['[', 'H'] ctx).map fun n => (Eff.home, n),
    fun ctx => (matchLit ['[', '2', 'J'] ctx).map fun n => (Eff.clear, n),
    fun ctx => (matchLit ['[', 'K'] ctx).map fun n => (Eff.eraseLine, n),
    fun ctx => (matchLit ['[', 'M'] ctx).map fun n => (Eff.delLine, n),
    fun ctx => (matchLit ['>'] ctx).map fun n => (Eff.noop, n),
    fun ctx => (matchLit ['<'] ctx).map fun n => (Eff.noop, n),
    fun ctx => (matchLit ['[', '?', '1', 'l'] ctx).map fun n => (Eff.noop, n),
    fun ctx => (matchLit ['='] ctx).map fun n => (Eff.noop, n) ]

/-- First matching rule wins (the `for r, func in self.control` loop). -/
def controlTable (ctx : List Char) : Option (Eff × Nat) :=
  controlRules.findSome? fun f => f ctx

/-- Apply a rule's effect (the lambdas of `REGEX` / `SIMPLE`).  Note the
source passes `col=1` for the `SIMPLE` `[D` rule as well (`self.rel(col=1)`
on line 189), and the four single-step `SIMPLE` cursor moves leave the
other axis as `None`, which `move(rel=True)` cannot add to an integer. -/
def applyEff (t : Term) : Eff → Option Term
  | .relUp n => Terminal.rel t (some (-n)) (some 0)
  | .relDown n => Terminal.rel t (some n) (some 0)
  | .relRight n => Terminal.rel t (some 0) (some n)
  | .relLeft n => Terminal.rel t (some 0) (some (-n))
  | .moveTo r c => Terminal.move t (some r) (some c) false
  | .setScroll a b => some (Terminal.set_scroll t a b)
  | .delN n => Terminal.del_lines t n.toNat none
  | .eraseToEnd => Terminal.erase t (t.row, t.col) ((t.rows : Int), (t.cols : Int))
  | .noop => some t
  | .simpleUp => Terminal.rel t (some (-1)) none
  | .simpleDown => Terminal.rel t (some 1) none
  | .simpleRight => Terminal.rel t none (some 1)
  | .simpleLeft => Terminal.rel t none (some 1)
  | .home => Terminal.move t (some 1) (some 1) false
  | .clear => some (Terminal.reset t)
  | .eraseLine => Terminal.erase t (t.row, t.col) (t.row + 1, (t.cols : Int))
  | .delLine => Terminal.del_lines t 1 (some (t.row + 1))

/-- `VT100.sequence(data, i)` on the stream suffix `s = data[i:]`: the
lookahead window is `data[i+1:i+10] = (s.drop 1).take 9`; an empty window
returns 0; a matching rule applies its effect and consumes `1 + len(match)`
characters; otherwise 0 is returned with no state change. -/
def VT100.sequence (t : Term) (s : List Char) : Option (Term × Nat) :=
  let ctx := (s.drop 1).take 9
  if ctx.isEmpty then some (t, 0)
  else
    match controlTable ctx with
    | none => some (t, 0)
    | some (e, len) => (applyEff t e).map fun t' => (t', 1 + len)

/-- `Terminal.pre(data, i)` (with `VT100.sequence` via dynamic dispatch) on
the suffix `s = data[i:]`: classify `data[i]` as escape introducer, bare
control character (backspace, CR, LF, bell), or plain (`None`).  The result
is the consumed count (`some n`) or `none` for a plain character. -/
def VT100.pre (t : Term) (s : List Char) : Option (Term × Option Nat) :=
  match s with
  | [] => none
  | b :: _ =>
    if b = ESC then (VT100.sequence t s).map fun p => (p.1, some p.2)
    else if b = '\x08' then
      (putc { t with col := max 0 (t.col - 1) } ' ' false).map fun t' => (t', some 1)
    else if b = '\x0d' then
      (Terminal.move t none (some 1) false).map fun t' => (t', some 1)
    else if b = '\x0a' then
      (Terminal.move t (some (t.row + 1)) (some 1) false).map fun t' => (t', some 1)
    else if b = '\x07' then some (t, some 1)
    else some (t, none)

/-- The scan loop of `Terminal.append`, driven by a fuel argument (every
iteration consumes at least one character, so fuel = length suffices).
When `pre` returns 0 and fewer than 8 characters remain
(`i > len(data) - 8`), the unconsumed tail is stored as `pending`;
otherwise an unrecognized escape is skipped one character at a time; a
plain character is written via `puts`. -/
def loopF : Nat → Term → List Char → Option Term
  | _, t, [] => some t
  | 0, _, _ :: _ => none
  | fuel + 1, t, c :: rest =>
    match VT100.pre t (c :: rest) with
    | none => none
    | some (t', some n) =>
      if n = 0 then
        if rest.length + 1 ≤ 7 then some { t' with pending := c :: rest }
        else loopF fuel t' rest
      else loopF fuel t' ((c :: rest).drop n)
    | some (_, none) =>
      match Terminal.puts t [c] true with
      | none => none
      | some t' => loopF fuel t' rest

/-- `Terminal.append(data)` (text input): prepend and clear the pending
residue, then scan. -/
def VT100.append (t : Term) (data : List Char) : Option Term :=
  let d := t.pending ++ data
  loopF d.length { t with pending := [] } d

/-- A freshly constructed `VT100(cols, rows)`: full-height scroll region,
cursor at (1, 1), all-blank grid, no pending residue. -/
def VT100.new (cols rows : Nat) : Term :=
  { cols := cols, rows := rows, scroll := (1, (rows : Int)), row := 1, col := 1,
    buf := List.replicate rows (List.replicate cols ' '), pending := [] }

/-- Buffer cell lookup at 0-based indices, for stating grid properties. -/
def cellB (buf : List (List Char)) (i j : Nat) : Option Char :=
  (buf.get? i).bind fun r => r.get? j

/-- Cell lookup at 0-based indices, for stating grid properties. -/
def cell (t : Term) (i j : Nat) : Option Char :=
  cellB t.buf i j


/-! Concrete states used by counterexamples and witnesses. -/

/-- An in-bounds cursor state on a fresh 10x5 terminal, cursor at (3, 4). -/
def tC5 : Term := { VT100.new 10 5 with row := 3, col := 4 }

/-- A 3x3 terminal with distinct cell contents and scroll region (1, 2). -/
def tC7 : Term :=
  { cols := 3, rows := 3, scroll := (1, 2), row := 1, col := 1,
    buf := [['a', 'b', 'c'], ['d', 'e', 'f'], ['g', 'h', 'i']], pending := [] }

/-- First fragment of the C4 counterexample: an absolute-position escape
sequence cut 8 characters in (the defer window holds back at most 7). -/
def fragC4a : List Char := [ESC, '[', '1', '2', '3', ';', '4', '5']

/-- Second fragment of the C4 counterexample: the final `H`. -/
def fragC4b : List Char := ['H']

/-- C1.  The claim says a line-feed-driven scroll with the default
full-height region discards row 1 and shifts every other row up.  On
`VT100(1, 2)`, after writing `a` (row 1) and `b` (row 2) the cursor wrap
triggers the scroll; the claim predicts the grid `[[b], [blank]]`, but the
code calls `del_lines(1, scroll.top - 1) = del_lines(1, 0)`, and
`del buf[0 - 1]` deletes the **bottom** row by Python negative indexing, so
row 1 keeps its content and nothing shifts: the grid is `[[a], [blank]]`. -/
theorem c1_scroll_discards_bottom_row :
    (VT100.append (VT100.new 1 2) ['a', 'b']).map Term.buf = some [['a'], [' ']] ∧
    (some [['a'], [' ']] : Option (List (List Char))) ≠ some [['b'], [' ']] := by
  decide

/-- C2.  The claim says `append` never raises on any recognized escape
sequence, naming the single-step cursor moves.  Feeding any of
`ESC[A`..`ESC[D` matches a `SIMPLE` rule whose handler calls
`self.rel` with the other axis left `None`; `move(rel=True)` then computes
`int + None`, raising `TypeError`: all four appends raise (`none`). -/
theorem c2_simple_cursor_moves_raise :
    VT100.append (VT100.new 2 2) [ESC, '[', 'A'] = none ∧
    VT100.append (VT100.new 2 2) [ESC, '[', 'B'] = none ∧
    VT100.append (VT100.new 2 2) [ESC, '[', 'C'] = none ∧
    VT100.append (VT100.new 2 2) [ESC, '[', 'D'] = none := by
  decide

/-- C3.  The claim says a scroll confined to region `[top, bottom]` with
`top > 1` leaves every row outside the region unchanged.  On `VT100(2, 4)`
with rows `a b c d`, region `(2, 3)` and a line feed at row 3, the scroll
trigger calls `del_lines(1, top - 1) = del_lines(1, 1)`, deleting row 1
(`del buf[0]`), which lies **outside** the region: row 1 changes from
`"a "` to `"b "`. -/
theorem c3_region_scroll_clobbers_outside_row :
    (VT100.append (VT100.new 2 4)
        ("\x1b[1;1Ha\x1b[2;1Hb\x1b[3;1Hc\x1b[4;1Hd\x1b[2;3r\x1b[3;1H\x0a").toList).map
      Term.buf
      = some [['b', ' '], ['c', ' '], [' ', ' '], ['d', ' ']] ∧
    (['b', ' '] : List Char) ≠ ['a', ' '] := by
  decide

/-- C4 counterexample.  Splitting the 9-character sequence `ESC[123;45H`
after its first 8 characters leaves 8 unconsumed characters at the escape
introducer, which is **not** within the 7-character defer window, so the
first call misclassifies the incomplete sequence as unknown and prints its
body as text, while the single call recognizes it: the final states
differ. -/
theorem c4_chunking_counterexample :
    (VT100.append (VT100.new 5 3) fragC4a).bind (fun u => VT100.append u fragC4b)
      ≠ VT100.append (VT100.new 5 3) (fragC4a ++ fragC4b) := by
  decide

/-- C5 counterexample.  The claim says a relative move with zero delta on
an axis collapses that axis to 1.  At the in-bounds cursor (3, 4),
`rel(0, 0)` computes `self.row + 0 or 1 = 3` and `self.col + 0 or 1 = 4`
(nonzero, so no falsy collapse): the cursor stays at (3, 4), not (1, 1). -/
theorem c5_zero_delta_counterexample :
    Terminal.rel tC5 (some 0) (some 0) = some tC5 ∧
    tC5.row = 3 ∧ tC5.col = 4 ∧ (3 : Int) ≠ 1 ∧ (4 : Int) ≠ 1 := by
  decide

/-- C6 counterexample.  The claim says the cursor column satisfies
`1 ≤ col` when `append` returns after a backspace at column 1.  The
backspace handler sets `self.col = max(0, self.col - 1) = 0` and never
renormalizes, so `append` returns with `col = 0 < 1`. -/
theorem c6_backspace_counterexample :
    (VT100.append (VT100.new 3 2) ['\x08']).map (fun u => (u.row, u.col)) = some (1, 0) ∧
    ¬ (1 ≤ (0 : Int)) := by
  decide

/-- C7 counterexample.  The claim says `erase` blanks exactly the requested
rectangle under **every** active scroll region.  With region (1, 2) on a
3x3 grid, erasing the one-cell rectangle at (3, 1) makes `move(3, 1)`
scroll (row 3 is past the region bottom), rotating the buffer: the claimed
result blanks only cell (3, 1), but the code yields a grid in which rows
2 and 3 changed wholesale. -/
theorem c7_erase_counterexample :
    (Terminal.erase tC7 (3, 1) (4, 2)).map Term.buf
        = some [['a', 'b', 'c'], [' ', ' ', ' '], ['d', 'e', 'f']] ∧
    (some [['a', 'b', 'c'], [' ', ' ', ' '], ['d', 'e', 'f']]
        : Option (List (List Char)))
      ≠ some [['a', 'b', 'c'], ['d', 'e', 'f'], [' ', 'h', 'i']] := by
  decide

/-- C8 counterexample.  The claim quantifies over every terminal with
`rows ≥ 2`, including `cols = 1`.  On `VT100(1, 3)`, writing `cols + 1 = 2`
plain characters leaves the cursor at (3, 1) (the second character's
advance wraps again), not at (2, 2) as claimed. -/
theorem c8_wrap_counterexample :
    (VT100.append (VT100.new 1 3) ['a', 'b']).map (fun u => (u.row, u.col))
        = some (3, 1) ∧
    (some ((3 : Int), (1 : Int)) : Option (Int × Int)) ≠ some (2, 2) := by
  decide

/-! Grid-shape invariant machinery. -/

/-- A `rows × cols` buffer: the row count and every row's length match. -/
def BufWF (rows cols : Nat) (buf : List (List Char)) : Prop :=
  buf.length = rows ∧ ∀ r ∈ buf, r.length = cols

/-- Well-formed terminal grid: the buffer is `rows × cols`. -/
def Shape (t : Term) : Prop :=
  BufWF t.rows t.cols t.buf

instance : DecidablePred Shape := fun t => by
  unfold Shape BufWF; infer_instance

lemma pyIdx_lt {len : Nat} {i : Int} {k : Nat} (h : pyIdx len i = some k) : k < len := by
  unfold pyIdx at h
  split at h
  · simp only [Option.some.injEq] at h
    omega
  · split at h
    · simp only [Option.some.injEq] at h
      omega
    · exact absurd h (by simp)

lemma pyGet_mem {α : Type} {l : List α} {i : Int} {a : α} (h : pyGet l i = some a) : a ∈ l := by
  unfold pyGet at h
  cases hk : pyIdx l.length i with
  | none => rw [hk] at h; simp at h
  | some k =>
    rw [hk] at h
    simp only [Option.some_bind] at h
    exact List.get?_mem h

lemma pySet_some {α : Type} {l : List α} {i : Int} {v : α} {l' : List α}
    (h : pySet l i v = some l') : ∃ k, k < l.length ∧ l' = l.set k v := by
  unfold pySet at h
  cases hk : pyIdx l.length i with
  | none => rw [hk] at h; simp at h
  | some k =>
    rw [hk] at h
    simp only [Option.map_some', Option.some.injEq] at h
    exact ⟨k, pyIdx_lt hk, h.symm⟩

lemma pyDel_some {α : Type} {l : List α} {i : Int} {l' : List α}
    (h : pyDel l i = some l') : ∃ k, k < l.length ∧ l' = l.eraseIdx k := by
  unfold pyDel at h
  cases hk : pyIdx l.length i with
  | none => rw [hk] at h; simp at h
  | some k =>
    rw [hk] at h
    simp only [Option.map_some', Option.some.injEq] at h
    exact ⟨k, pyIdx_lt hk, h.symm⟩

lemma mem_of_mem_eraseIdx {α : Type} {l : List α} {n : Nat} {a : α}
    (h : a ∈ l.eraseIdx n) : a ∈ l := by
  induction l generalizing n with
  | nil => simp [List.eraseIdx] at h
  | cons x xs ih =>
    cases n with
    | zero =>
      simp only [List.eraseIdx] at h
      exact List.mem_cons_of_mem _ h
    | succ m =>
      simp only [List.eraseIdx, List.mem_cons] at h
      rcases h with h | h
      · exact h ▸ List.mem_cons_self x xs
      · exact List.mem_cons_of_mem _ (ih h)

lemma pyInsert_wf {rows cols : Nat} {buf : List (List Char)} {i : Int}
    (hlen : buf.length + 1 = rows) (hmem : ∀ r ∈ buf, r.length = cols) :
    BufWF rows cols (pyInsert buf i (List.replicate cols ' ')) := by
  unfold pyInsert BufWF
  set j : Int := if i < 0 then i + buf.length else i with hj
  set k : Nat := if j < 0 then 0 else min j.toNat buf.length with hk
  have hkle : k ≤ buf.length := by
    rw [hk]; split
    · exact Nat.zero_le _
    · exact Nat.min_le_right _ _
  constructor
  · rw [List.length_insertIdx _ _ hkle, hlen]
  · intro r hr
    rw [List.mem_insertIdx hkle] at hr
    rcases hr with hr | hr
    · rw [hr, List.length_replicate]
    · exact hmem r hr

lemma delLoop_wf {rows cols : Nat} {r bot : Int} :
    ∀ {n : Nat} {buf buf' : List (List Char)}, BufWF rows cols buf →
      delLoop r bot cols n buf = some buf' → BufWF rows cols buf' := by
  intro n
  induction n with
  | zero =>
    intro buf buf' hwf h
    simp only [delLoop, Option.some.injEq] at h
    exact h ▸ hwf
  | succ m ih =>
    intro buf buf' hwf h
    simp only [delLoop] at h
    cases hd : pyDel buf (r - 1) with
    | none => rw [hd] at h; simp at h
    | some b1 =>
      rw [hd] at h
      obtain ⟨k, hk, hb1⟩ := pyDel_some hd
      refine ih ?_ h
      refine pyInsert_wf ?_ ?_
      · have h1 := hwf.1
        rw [hb1, List.length_eraseIdx_of_lt hk]
        omega
      · intro x hx
        exact hwf.2 x (mem_of_mem_eraseIdx (hb1 ▸ hx))

/-- Shape (and the dimension fields) are preserved by an operation on `t`. -/
def Pres (t : Term) (res : Option Term) : Prop :=
  ∀ t', res = some t' → Shape t' ∧ t'.rows = t.rows ∧ t'.cols = t.cols ∧ t'.pending = t.pending

lemma pres_del_lines {t : Term} (hs : Shape t) (num : Nat) (row : Option Int) :
    Pres t (Terminal.del_lines t num row) := by
  intro t' h
  unfold Terminal.del_lines at h
  cases hd : delLoop (row.getD t.row) t.scroll.2 t.cols num t.buf with
  | none => rw [hd] at h; simp at h
  | some b =>
    rw [hd] at h
    simp only [Option.map_some', Option.some.injEq] at h
    have := delLoop_wf hs hd
    subst h
    exact ⟨this, rfl, rfl, rfl⟩

lemma pres_moveNorm {t : Term} (hs : Shape t) (r0 c0 : Int) :
    Pres t (moveNorm t r0 c0) := by
  intro t' h
  unfold moveNorm at h
  dsimp only at h
  set p2 := wrapCol t r0 c0 with hp2
  set r3 := if p2.1 < t.scroll.1 then t.scroll.1 else p2.1 with hr3
  split at h
  · cases hd : Terminal.del_lines t 1 (some (t.scroll.1 - 1)) with
    | none => rw [hd] at h; simp at h
    | some u =>
      rw [hd] at h
      simp only [Option.map_some', Option.some.injEq] at h
      have hu := pres_del_lines hs 1 (some (t.scroll.1 - 1)) u hd
      subst h
      exact ⟨hu.1, hu.2.1, hu.2.2.1, hu.2.2.2⟩
  · simp only [Option.some.injEq] at h
    subst h
    exact ⟨hs, rfl, rfl, rfl⟩

lemma pres_move {t : Term} (hs : Shape t) (row col : Option Int) (rel : Bool) :
    Pres t (Terminal.move t row col rel) := by
  intro t' h
  unfold Terminal.move at h
  split at h
  · cases row with
    | none => simp at h
    | some dr =>
      cases col with
      | none => simp at h
      | some dc => exact pres_moveNorm hs _ _ t' h
  · exact pres_moveNorm hs _ _ t' h

lemma pres_putc {t : Term} (hs : Shape t) (c : Char) (mv : Bool) :
    Pres t (putc t c mv) := by
  intro t' h
  unfold putc at h
  cases hg : pyGet t.buf (t.row - 1) with
  | none => rw [hg] at h; simp at h
  | some rowl =>
    rw [hg] at h
    dsimp only at h
    cases hs1 : pySet rowl (t.col - 1) c with
    | none => rw [hs1] at h; simp at h
    | some rowl' =>
      rw [hs1] at h
      dsimp only at h
      cases hs2 : pySet t.buf (t.row - 1) rowl' with
      | none => rw [hs2] at h; simp at h
      | some buf' =>
        rw [hs2] at h
        dsimp only at h
        have hwf : Shape { t with buf := buf' } := by
          obtain ⟨k, hk, hb⟩ := pySet_some hs2
          obtain ⟨k2, hk2, hb2⟩ := pySet_some hs1
          constructor
          · rw [hb, List.length_set, hs.1]
          · intro r hr
            rcases List.mem_or_eq_of_mem_set (hb ▸ hr) with hr' | hr'
            · exact hs.2 r hr'
            · rw [hr', hb2, List.length_set]
              exact hs.2 rowl (pyGet_mem hg)
        split at h
        · exact pres_move hwf _ _ _ t' h
        · simp only [Option.some.injEq] at h
          subst h
          exact ⟨hwf, rfl, rfl, rfl⟩

lemma pres_puts {t : Term} (hs : Shape t) (s : List Char) (mv : Bool) :
    Pres t (Terminal.puts t s mv) := by
  induction s generalizing t with
  | nil =>
    intro t' h
    simp only [Terminal.puts, Option.some.injEq] at h
    subst h; exact ⟨hs, rfl, rfl, rfl⟩
  | cons c cs ih =>
    intro t' h
    simp only [Terminal.puts] at h
    cases hp : putc t c mv with
    | none => rw [hp] at h; simp at h
    | some u =>
      rw [hp] at h
      have hu := pres_putc hs c mv u hp
      have := ih hu.1 t' h
      exact ⟨this.1, this.2.1.trans hu.2.1, this.2.2.1.trans hu.2.2.1,
        this.2.2.2.trans hu.2.2.2⟩

lemma pres_eraseCols {r : Int} :
    ∀ {n : Nat} {c : Int} {t : Term}, Shape t → Pres t (eraseCols r c n t) := by
  intro n
  induction n with
  | zero =>
    intro c t hs t' h
    simp only [eraseCols, Option.some.injEq] at h
    subst h; exact ⟨hs, rfl, rfl, rfl⟩
  | succ m ih =>
    intro c t hs t' h
    simp only [eraseCols] at h
    cases h1 : Terminal.move t (some r) (some c) false with
    | none => rw [h1] at h; simp at h
    | some t1 =>
      rw [h1] at h
      dsimp only at h
      have hp1 := pres_move hs (some r) (some c) false t1 h1
      cases h2 : Terminal.puts t1 [' '] true with
      | none => rw [h2] at h; simp at h
      | some t2 =>
        rw [h2] at h
        dsimp only at h
        have hp2 := pres_puts hp1.1 [' '] true t2 h2
        have h3 := ih hp2.1 t' h
        exact ⟨h3.1, (h3.2.1.trans hp2.2.1).trans hp1.2.1,
          (h3.2.2.1.trans hp2.2.2.1).trans hp1.2.2.1,
          (h3.2.2.2.trans hp2.2.2.2).trans hp1.2.2.2⟩

lemma pres_eraseRows {c1 c2 : Int} :
    ∀ {n : Nat} {r : Int} {t : Term}, Shape t → Pres t (eraseRows c1 c2 r n t) := by
  intro n
  induction n with
  | zero =>
    intro r t hs t' h
    simp only [eraseRows, Option.some.injEq] at h
    subst h; exact ⟨hs, rfl, rfl, rfl⟩
  | succ m ih =>
    intro r t hs t' h
    simp only [eraseRows] at h
    cases h1 : eraseCols r c1 ((c2 - c1).toNat) t with
    | none => rw [h1] at h; simp at h
    | some t1 =>
      rw [h1] at h
      dsimp only at h
      have hp1 := pres_eraseCols hs t1 h1
      have h2 := ih hp1.1 t' h
      exact ⟨h2.1, h2.2.1.trans hp1.2.1, h2.2.2.1.trans hp1.2.2.1,
        h2.2.2.2.trans hp1.2.2.2⟩

lemma pres_erase {t : Term} (hs : Shape t) (s e : Int × Int) :
    Pres t (Terminal.erase t s e) := by
  intro t' h
  unfold Terminal.erase at h
  cases h1 : eraseRows s.2 e.2 s.1 ((e.1 - s.1).toNat) t with
  | none => rw [h1] at h; simp at h
  | some t1 =>
    rw [h1] at h
    simp only [Option.map_some', Option.some.injEq] at h
    have hp1 := pres_eraseRows hs t1 h1
    subst h
    exact ⟨hp1.1, hp1.2.1, hp1.2.2.1, hp1.2.2.2⟩

lemma shape_reset (t : Term) : Shape (Terminal.reset t) := by
  unfold Terminal.reset Shape BufWF
  constructor
  · exact List.length_replicate _ _
  · intro r hr
    rw [List.eq_of_mem_replicate hr]
    exact List.length_replicate _ _

lemma pres_applyEff {t : Term} (hs : Shape t) (e : Eff) :
    Pres t (applyEff t e) := by
  intro t' h
  cases e with
  | relUp n =>
    simp only [applyEff, Terminal.rel] at h
    exact pres_move hs _ _ _ t' h
  | relDown n =>
    simp only [applyEff, Terminal.rel] at h
    exact pres_move hs _ _ _ t' h
  | relRight n =>
    simp only [applyEff, Terminal.rel] at h
    exact pres_move hs _ _ _ t' h
  | relLeft n =>
    simp only [applyEff, Terminal.rel] at h
    exact pres_move hs _ _ _ t' h
  | moveTo r c =>
    simp only [applyEff] at h
    exact pres_move hs _ _ _ t' h
  | setScroll a b =>
    simp only [applyEff, Option.some.injEq] at h
    subst h; exact ⟨hs, rfl, rfl, rfl⟩
  | delN n =>
    simp only [applyEff] at h
    exact pres_del_lines hs _ _ t' h
  | eraseToEnd =>
    simp only [applyEff] at h
    exact pres_erase hs _ _ t' h
  | noop =>
    simp only [applyEff, Option.some.injEq] at h
    subst h; exact ⟨hs, rfl, rfl, rfl⟩
  | simpleUp =>
    simp only [applyEff, Terminal.rel] at h
    exact pres_move hs _ _ _ t' h
  | simpleDown =>
    simp only [applyEff, Terminal.rel] at h
    exact pres_move hs _ _ _ t' h
  | simpleRight =>
    simp only [applyEff, Terminal.rel] at h
    exact pres_move hs _ _ _ t' h
  | simpleLeft =>
    simp only [applyEff, Terminal.rel] at h
    exact pres_move hs _ _ _ t' h
  | home =>
    simp only [applyEff] at h
    exact pres_move hs _ _ _ t' h
  | clear =>
    simp only [applyEff, Option.some.injEq] at h
    subst h; exact ⟨shape_reset t, rfl, rfl, rfl⟩
  | eraseLine =>
    simp only [applyEff] at h
    exact pres_erase hs _ _ t' h
  | delLine =>
    simp only [applyEff] at h
    exact pres_del_lines hs _ _ t' h

lemma pres_sequence {t : Term} (hs : Shape t) (s : List Char) (t' : Term) (n : Nat)
    (h : VT100.sequence t s = some (t', n)) :
    Shape t' ∧ t'.rows = t.rows ∧ t'.cols = t.cols ∧ t'.pending = t.pending := by
  unfold VT100.sequence at h
  dsimp only at h
  split at h
  · simp only [Option.some.injEq, Prod.mk.injEq] at h
    obtain ⟨h1, _⟩ := h
    subst h1; exact ⟨hs, rfl, rfl, rfl⟩
  · cases hc : controlTable ((s.drop 1).take 9) with
    | none =>
      rw [hc] at h
      simp only [Option.some.injEq, Prod.mk.injEq] at h
      obtain ⟨h1, _⟩ := h
      subst h1; exact ⟨hs, rfl, rfl, rfl⟩
    | some p =>
      obtain ⟨e, len⟩ := p
      rw [hc] at h
      dsimp only at h
      cases ha : applyEff t e with
      | none => rw [ha] at h; simp at h
      | some u =>
        rw [ha] at h
        simp only [Option.map_some', Option.some.injEq, Prod.mk.injEq] at h
        obtain ⟨h1, _⟩ := h
        subst h1
        exact pres_applyEff hs e _ ha

lemma pres_pre {t : Term} (hs : Shape t) (s : List Char) (t' : Term) (r : Option Nat)
    (h : VT100.pre t s = some (t', r)) :
    Shape t' ∧ t'.rows = t.rows ∧ t'.cols = t.cols ∧ t'.pending = t.pending := by
  unfold VT100.pre at h
  cases s with
  | nil => simp at h
  | cons b rest =>
    dsimp only at h
    split at h
    · cases hq : VT100.sequence t (b :: rest) with
      | none => rw [hq] at h; simp at h
      | some p =>
        rw [hq] at h
        simp only [Option.map_some', Option.some.injEq, Prod.mk.injEq] at h
        obtain ⟨h1, _⟩ := h
        subst h1
        exact pres_sequence hs (b :: rest) p.1 p.2 (by rw [hq])
    · split at h
      · cases hp : putc { t with col := max 0 (t.col - 1) } ' ' false with
        | none => rw [hp] at h; simp at h
        | some u =>
          rw [hp] at h
          simp only [Option.map_some', Option.some.injEq, Prod.mk.injEq] at h
          obtain ⟨h1, _⟩ := h
          subst h1
          exact pres_putc (t := { t with col := max 0 (t.col - 1) }) hs ' ' false _ hp
      · split at h
        · cases hm : Terminal.move t none (some 1) false with
          | none => rw [hm] at h; simp at h
          | some u =>
            rw [hm] at h
            simp only [Option.map_some', Option.some.injEq, Prod.mk.injEq] at h
            obtain ⟨h1, _⟩ := h
            subst h1
            exact pres_move hs none (some 1) false _ hm
        · split at h
          · cases hm : Terminal.move t (some (t.row + 1)) (some 1) false with
            | none => rw [hm] at h; simp at h
            | some u =>
              rw [hm] at h
              simp only [Option.map_some', Option.some.injEq, Prod.mk.injEq] at h
              obtain ⟨h1, _⟩ := h
              subst h1
              exact pres_move hs (some (t.row + 1)) (some 1) false _ hm
          · split at h
            · simp only [Option.some.injEq, Prod.mk.injEq] at h
              obtain ⟨h1, _⟩ := h
              subst h1; exact ⟨hs, rfl, rfl, rfl⟩
            · simp only [Option.some.injEq, Prod.mk.injEq] at h
              obtain ⟨h1, _⟩ := h
              subst h1; exact ⟨hs, rfl, rfl, rfl⟩

lemma pres_loopF :
    ∀ (fuel : Nat) (t : Term) (d : List Char) (t' : Term), Shape t →
      loopF fuel t d = some t' → Shape t' ∧ t'.rows = t.rows ∧ t'.cols = t.cols := by
  intro fuel
  induction fuel with
  | zero =>
    intro t d t' hs h
    cases d with
    | nil =>
      simp only [loopF, Option.some.injEq] at h
      subst h; exact ⟨hs, rfl, rfl⟩
    | cons c rest => simp [loopF] at h
  | succ m ih =>
    intro t d t' hs h
    cases d with
    | nil =>
      simp only [loopF, Option.some.injEq] at h
      subst h; exact ⟨hs, rfl, rfl⟩
    | cons c rest =>
      simp only [loopF] at h
      cases hp : VT100.pre t (c :: rest) with
      | none => rw [hp] at h; simp at h
      | some pr =>
        obtain ⟨t1, r1⟩ := pr
        rw [hp] at h
        have h1 := pres_pre hs (c :: rest) t1 r1 hp
        cases r1 with
        | some n =>
          dsimp only at h
          split at h
          · split at h
            · simp only [Option.some.injEq] at h
              subst h
              exact ⟨h1.1, h1.2.1, h1.2.2.1⟩
            · have h2 := ih t1 rest t' h1.1 h
              exact ⟨h2.1, h2.2.1.trans h1.2.1, h2.2.2.trans h1.2.2.1⟩
          · have h2 := ih t1 _ t' h1.1 h
            exact ⟨h2.1, h2.2.1.trans h1.2.1, h2.2.2.trans h1.2.2.1⟩
        | none =>
          dsimp only at h
          cases hq : Terminal.puts t [c] true with
          | none => rw [hq] at h; simp at h
          | some t2 =>
            rw [hq] at h
            have h2 := pres_puts hs [c] true t2 hq
            have h3 := ih t2 rest t' h2.1 h
            exact ⟨h3.1, h3.2.1.trans h2.2.1, h3.2.2.trans h2.2.2.1⟩

lemma flatten_rows_length (cols : Nat) :
    ∀ buf : List (List Char), (∀ r ∈ buf, r.length = cols) →
      ((buf.map (fun r => r ++ ['\n'])).flatten).length = buf.length * (cols + 1) := by
  intro buf
  induction buf with
  | nil => intro _; simp
  | cons x xs ih =>
    intro hmem
    have hx : x.length = cols := hmem x (List.mem_cons_self x xs)
    have hxs := ih fun r hr => hmem r (List.mem_cons_of_mem x hr)
    simp only [List.map_cons, List.flatten_cons, List.length_append, hxs, hx,
      List.length_cons, List.length_nil]
    ring

lemma dump_length {u : Term} (hs : Shape u) :
    (Terminal.dump u).length = u.rows * (u.cols + 1) := by
  unfold Terminal.dump
  rw [flatten_rows_length u.cols u.buf hs.2, hs.1]

/-- C9.  For a well-formed terminal, every `append` call that returns
normally preserves the grid shape: the buffer still holds exactly `rows`
rows of exactly `cols` cells, so `dump` returns exactly
`rows * (cols + 1)` characters (each row followed by one line break). -/
theorem c9_grid_shape (t : Term) (data : List Char) (t' : Term)
    (hs : Shape t) (h : VT100.append t data = some t') :
    Shape t' ∧ t'.rows = t.rows ∧ t'.cols = t.cols ∧
      (Terminal.dump t').length = t.rows * (t.cols + 1) := by
  simp only [VT100.append] at h
  have hp := pres_loopF (t.pending ++ data).length { t with pending := [] }
    (t.pending ++ data) t' hs h
  exact ⟨hp.1, hp.2.1, hp.2.2, by rw [dump_length hp.1, hp.2.1, hp.2.2]⟩

/-- The grid after `VT100(2, 2)` processes `"a"`. -/
def wC9 : Term :=
  { cols := 2, rows := 2, scroll := (1, 2), row := 1, col := 2,
    buf := [['a', ' '], [' ', ' ']], pending := [] }

/-- Witness for C9 at the concrete input `VT100(2, 2)`, `append("a")`. -/
theorem c9_grid_shape_witness :
    Shape (VT100.new 2 2) ∧ VT100.append (VT100.new 2 2) ['a'] = some wC9 ∧
      Shape wC9 ∧ (Terminal.dump wC9).length = 2 * (2 + 1) := by
  have h := c9_grid_shape (VT100.new 2 2) ['a'] wC9 (by decide) (by decide)
  exact ⟨by decide, by decide, h.1, h.2.2.2⟩

/-! Exact characterizations of cursor motion in the in-bounds regimes. -/

lemma pyIdx_nonneg {len : Nat} {i : Int} (h1 : 0 ≤ i) (h2 : i < (len : Int)) :
    pyIdx len i = some i.toNat := by
  unfold pyIdx
  rw [if_pos ⟨h1, h2⟩]

lemma pyIdx_neg {len : Nat} {i : Int} (h1 : -(len : Int) ≤ i) (h2 : i < 0) :
    pyIdx len i = some (i + len).toNat := by
  unfold pyIdx
  rw [if_neg (by omega), if_pos ⟨h1, h2⟩]

lemma pyGet_eq {α : Type} {l : List α} {i : Int} (h1 : 0 ≤ i) (h2 : i < (l.length : Int)) :
    pyGet l i = l.get? i.toNat := by
  unfold pyGet
  rw [pyIdx_nonneg h1 h2]
  rfl

lemma pySet_eq {α : Type} {l : List α} {i : Int} (v : α) (h1 : 0 ≤ i)
    (h2 : i < (l.length : Int)) : pySet l i v = some (l.set i.toNat v) := by
  unfold pySet
  rw [pyIdx_nonneg h1 h2]
  rfl

lemma pySet_negIdx {α : Type} {l : List α} {i : Int} (v : α) (h1 : -(l.length : Int) ≤ i)
    (h2 : i < 0) : pySet l i v = some (l.set (i + l.length).toNat v) := by
  unfold pySet
  rw [pyIdx_neg h1 h2]
  rfl

lemma wrapCol_id {t : Term} {r0 c0 : Int} (h1 : 1 ≤ c0) (h2 : c0 ≤ (t.cols : Int)) :
    wrapCol t r0 c0 = (r0, c0) := by
  have hA : ¬ (c0 > (t.cols : Int)) := by omega
  have hB : ¬ (c0 < 1) := by omega
  simp [wrapCol, hA, hB]

lemma moveNorm_in_region {t : Term} {r0 c0 : Int} (hr1 : t.scroll.1 ≤ r0)
    (hr2 : r0 ≤ t.scroll.2) (hc1 : 1 ≤ c0) (hc2 : c0 ≤ (t.cols : Int)) :
    moveNorm t r0 c0 = some { t with row := r0, col := c0 } := by
  have hA : ¬ (r0 < t.scroll.1) := by omega
  have hB : ¬ (r0 > t.scroll.2) := by omega
  simp [moveNorm, wrapCol_id hc1 hc2, hA, hB]

lemma move_abs {t : Term} {r0 c0 : Int} (hr1 : t.scroll.1 ≤ r0) (hr2 : r0 ≤ t.scroll.2)
    (hc1 : 1 ≤ c0) (hc2 : c0 ≤ (t.cols : Int)) :
    Terminal.move t (some r0) (some c0) false = some { t with row := r0, col := c0 } := by
  simp [Terminal.move, moveNorm_in_region hr1 hr2 hc1 hc2]

lemma moveNorm_wrap {t : Term} {r0 c0 : Int} (hc : (t.cols : Int) < c0)
    (hr1 : t.scroll.1 ≤ r0 + 1) (hr2 : r0 + 1 ≤ t.scroll.2) :
    moveNorm t r0 c0 = some { t with row := r0 + 1, col := 1 } := by
  have hA : ¬ (r0 + 1 < t.scroll.1) := by omega
  have hB : ¬ (r0 + 1 > t.scroll.2) := by omega
  simp [moveNorm, wrapCol, show c0 > (t.cols : Int) from hc,
    show ¬ ((1 : Int) < 1) by omega, hA, hB]

/-- C5 (amended).  For every in-bounds cursor with the default full-height
scroll region, the falsy-zero quirk fires when the **sum** `current + delta`
is zero on an axis: `rel(-row, 0)` collapses the row to 1 and `rel(0, -col)`
collapses the column to 1 (instead of wrapping past the edge), while a
plain zero delta leaves the axis unchanged. -/
theorem c5_falsy_zero_amended (t : Term)
    (hrow1 : 1 ≤ t.row) (hrow2 : t.row ≤ (t.rows : Int))
    (hcol1 : 1 ≤ t.col) (hcol2 : t.col ≤ (t.cols : Int))
    (hscr : t.scroll = (1, (t.rows : Int))) :
    Terminal.rel t (some (-t.row)) (some 0) = some { t with row := 1 } ∧
    Terminal.rel t (some 0) (some (-t.col)) = some { t with col := 1 } ∧
    Terminal.rel t (some 0) (some 0) = some t := by
  have e1 : pyOr1 (t.row + -t.row) = 1 := by simp [pyOr1]
  have e2 : pyOr1 (t.col + 0) = t.col := by
    unfold pyOr1
    rw [if_neg (by omega)]
    omega
  have e3 : pyOr1 (t.row + 0) = t.row := by
    unfold pyOr1
    rw [if_neg (by omega)]
    omega
  have e4 : pyOr1 (t.col + -t.col) = 1 := by simp [pyOr1]
  have htop : t.scroll.1 = 1 := by rw [hscr]
  have hbot : t.scroll.2 = (t.rows : Int) := by rw [hscr]
  refine ⟨?_, ?_, ?_⟩
  · show Terminal.move t (some (-t.row)) (some 0) true = _
    simp only [Terminal.move, if_pos rfl, e1, e2]
    rw [moveNorm_in_region (by omega) (by omega) hcol1 hcol2]
    simp
  · show Terminal.move t (some 0) (some (-t.col)) true = _
    simp only [Terminal.move, if_pos rfl, e3, e4]
    rw [moveNorm_in_region (by omega) (by omega) (by omega) (by omega)]
    simp
  · show Terminal.move t (some 0) (some 0) true = _
    simp only [Terminal.move, if_pos rfl, e3, e2]
    rw [moveNorm_in_region (by omega) (by omega) hcol1 hcol2]
    simp

/-- Witness for the amended C5 at the concrete in-bounds state `tC5`. -/
theorem c5_falsy_zero_amended_witness :
    Terminal.rel tC5 (some (-tC5.row)) (some 0) = some { tC5 with row := 1 } ∧
    Terminal.rel tC5 (some 0) (some (-tC5.col)) = some { tC5 with col := 1 } ∧
    Terminal.rel tC5 (some 0) (some 0) = some tC5 :=
  c5_falsy_zero_amended tC5 (by decide) (by decide) (by decide) (by decide) (by decide)

lemma putc_bs {t : Term} (hs : Shape t) (hr1 : 1 ≤ t.row) (hr2 : t.row ≤ (t.rows : Int))
    (hcols : 1 ≤ t.cols) (hc : t.col = 0) :
    ∃ buf', putc t ' ' false = some { t with buf := buf' } := by
  have hlen : t.buf.length = t.rows := hs.1
  have hi1 : (0 : Int) ≤ t.row - 1 := by omega
  have hi2 : t.row - 1 < (t.buf.length : Int) := by
    rw [hlen]; omega
  have hk : (t.row - 1).toNat < t.buf.length := by omega
  obtain ⟨rowl, hrowl'⟩ : ∃ rowl, t.buf.get? (t.row - 1).toNat = some rowl :=
    ⟨_, List.get?_eq_get hk⟩
  have hrowl : pyGet t.buf (t.row - 1) = some rowl := by
    rw [pyGet_eq hi1 hi2, hrowl']
  have hrl : rowl.length = t.cols := hs.2 rowl (pyGet_mem hrowl)
  have hset1 : pySet rowl (t.col - 1) ' ' =
      some (rowl.set (t.col - 1 + rowl.length).toNat ' ') := by
    apply pySet_negIdx
    · rw [hrl]; omega
    · omega
  have hset2 : pySet t.buf (t.row - 1) (rowl.set (t.col - 1 + rowl.length).toNat ' ') =
      some (t.buf.set (t.row - 1).toNat (rowl.set (t.col - 1 + rowl.length).toNat ' ')) :=
    pySet_eq _ hi1 hi2
  refine ⟨t.buf.set (t.row - 1).toNat (rowl.set (t.col - 1 + rowl.length).toNat ' '), ?_⟩
  unfold putc
  rw [hrowl]
  dsimp only
  rw [hset1]
  dsimp only
  rw [hset2]
  rfl

lemma loopF_step {fuel : Nat} {t u : Term} {c : Char} {rest : List Char} {n : Nat}
    (hp : VT100.pre t (c :: rest) = some (u, some n)) (hn : n ≠ 0) :
    loopF (fuel + 1) t (c :: rest) = loopF fuel u ((c :: rest).drop n) := by
  simp only [loopF, hp]
  rw [if_neg hn]

lemma loopF_plain {fuel : Nat} {t u w : Term} {c : Char} {rest : List Char}
    (hp : VT100.pre t (c :: rest) = some (u, none))
    (hq : Terminal.puts t [c] true = some w) :
    loopF (fuel + 1) t (c :: rest) = loopF fuel w rest := by
  simp only [loopF, hp, hq]

/-- C6 (amended).  Processing a backspace at column 1 leaves the cursor row
unchanged (no wrap to the previous row) and clamps the column at 0 (it does
not go negative), but the column is **not** restored into `[1, cols]`
before `append` returns: the cursor column is exactly 0. -/
theorem c6_backspace_amended (t t' : Term)
    (hs : Shape t) (hpend : t.pending = []) (hcol : t.col = 1)
    (hrow1 : 1 ≤ t.row) (hrow2 : t.row ≤ (t.rows : Int)) (hcols : 1 ≤ t.cols)
    (h : VT100.append t [''] = some t') :
    t'.row = t.row ∧ t'.col = 0 := by
  have happ : loopF 1 { t with pending := [] } [''] = some t' := by
    rw [← h]
    simp only [VT100.append, hpend]
    rfl
  obtain ⟨buf', hput⟩ :=
    putc_bs (t := { t with pending := [], col := 0 }) hs hrow1 hrow2 hcols rfl
  have h0 : putc { t with pending := [], col := max 0 (t.col - 1) } ' ' false =
      some { t with pending := [], col := 0, buf := buf' } := by
    rw [show max 0 (t.col - 1) = (0 : Int) by omega]
    exact hput
  have hpre : VT100.pre { t with pending := [] } ['\x08'] =
      some ({ t with pending := [], col := 0, buf := buf' }, some 1) := by
    calc VT100.pre { t with pending := [] } ['\x08']
        = (putc { t with pending := [], col := max 0 (t.col - 1) } ' ' false).map
            (fun u => (u, some 1)) := rfl
      _ = some ({ t with pending := [], col := 0, buf := buf' }, some 1) := by
            rw [h0]
            rfl
  rw [@loopF_step 0 _ _ _ _ _ hpre (by omega)] at happ
  simp only [List.drop_succ_cons, List.drop_nil, loopF, Option.some.injEq] at happ
  subst happ
  exact ⟨rfl, rfl⟩

/-- Witness for the amended C6: a fresh 3x2 terminal fed one backspace. -/
theorem c6_backspace_amended_witness :
    (VT100.new 3 2).col = 1 ∧
    (VT100.append (VT100.new 3 2) ['\x08']).map (fun u => (u.row, u.col)) = some (1, 0) := by
  have e : VT100.append (VT100.new 3 2) ['\x08'] =
      some { VT100.new 3 2 with col := 0, buf := [[' ', ' ', ' '], [' ', ' ', ' ']] } := by
    decide
  have h2 := c6_backspace_amended (VT100.new 3 2) _ (by decide) rfl rfl (by decide) (by decide)
    (by decide) e
  refine ⟨rfl, ?_⟩
  rw [e]
  simp only [Option.map_some']
  rw [h2.1]
  rfl

/-! Cell-level characterization of in-bounds writes, for the erase and
cursor-wrap properties. -/

/-- Pure single-cell update at 0-based indices (the effect of an in-bounds
`self.buf[row][col] = ch`). -/
def setCell (buf : List (List Char)) (i j : Nat) (ch : Char) : List (List Char) :=
  match buf.get? i with
  | none => buf
  | some r => buf.set i (r.set j ch)

lemma listGetSetSame {α : Type} : ∀ (l : List α) (n : Nat) (v : α), n < l.length →
    (l.set n v).get? n = some v := by
  intro l
  induction l with
  | nil => intro n v h; simp at h
  | cons x xs ih =>
    intro n v h
    cases n with
    | zero => rfl
    | succ m => exact ih m v (Nat.lt_of_succ_lt_succ h)

lemma listGetSetOther {α : Type} : ∀ (l : List α) (n m : Nat) (v : α), n ≠ m →
    (l.set n v).get? m = l.get? m := by
  intro l
  induction l with
  | nil => intro n m v _; rfl
  | cons x xs ih =>
    intro n m v h
    cases n with
    | zero =>
      cases m with
      | zero => exact absurd rfl h
      | succ m' => rfl
    | succ n' =>
      cases m with
      | zero => rfl
      | succ m' => exact ih n' m' v (fun he => h (by rw [he]))

lemma cellB_setCell {buf : List (List Char)} {i j : Nat} {ch : Char} {rowl : List Char}
    (hget : buf.get? i = some rowl) (hj : j < rowl.length) (i' j' : Nat) :
    cellB (setCell buf i j ch) i' j' =
      if i = i' ∧ j = j' then some ch else cellB buf i' j' := by
  have hi : i < buf.length := by
    obtain ⟨h, _⟩ := List.get?_eq_some.mp hget
    exact h
  unfold setCell
  rw [hget]
  by_cases hii : i = i'
  · subst hii
    unfold cellB
    rw [listGetSetSame _ _ _ hi, hget]
    by_cases hjj : j = j'
    · subst hjj
      rw [if_pos ⟨rfl, rfl⟩]
      simp only [Option.some_bind]
      exact listGetSetSame _ _ _ hj
    · rw [if_neg (fun hp => hjj hp.2)]
      simp only [Option.some_bind]
      exact listGetSetOther _ _ _ _ hjj
  · unfold cellB
    rw [listGetSetOther _ _ _ _ hii, if_neg (fun hp => hii hp.1)]

lemma setCell_wf {rows cols : Nat} {buf : List (List Char)} (h : BufWF rows cols buf)
    (i j : Nat) (ch : Char) : BufWF rows cols (setCell buf i j ch) := by
  unfold setCell
  cases hget : buf.get? i with
  | none => exact h
  | some r =>
    constructor
    · rw [List.length_set]; exact h.1
    · intro x hx
      rcases List.mem_or_eq_of_mem_set hx with hx | hx
      · exact h.2 x hx
      · rw [hx, List.length_set]
        exact h.2 r (List.get?_mem hget)

/-- An in-bounds write with cursor advance that stays on the same row:
`puts(ch)` writes the cell under the cursor and moves one column right. -/
lemma putc_write_move {t : Term} (hs : Shape t) (ch : Char)
    (htop1 : 1 ≤ t.scroll.1) (hrtop : t.scroll.1 ≤ t.row) (hrbot : t.row ≤ t.scroll.2)
    (hbotn : t.scroll.2 ≤ (t.rows : Int))
    (hc1 : 1 ≤ t.col) (hc2 : t.col + 1 ≤ (t.cols : Int)) :
    putc t ch true = some { t with
      buf := setCell t.buf (t.row - 1).toNat (t.col - 1).toNat ch, col := t.col + 1 } := by
  have hi1 : (0 : Int) ≤ t.row - 1 := by omega
  have hi2 : t.row - 1 < (t.buf.length : Int) := by
    rw [hs.1]; omega
  have hk : (t.row - 1).toNat < t.buf.length := by omega
  obtain ⟨rowl, hrowl'⟩ : ∃ rowl, t.buf.get? (t.row - 1).toNat = some rowl :=
    ⟨_, List.get?_eq_get hk⟩
  have hrowl : pyGet t.buf (t.row - 1) = some rowl := by
    rw [pyGet_eq hi1 hi2, hrowl']
  have hrl : rowl.length = t.cols := hs.2 rowl (pyGet_mem hrowl)
  have hj1 : (0 : Int) ≤ t.col - 1 := by omega
  have hj2 : t.col - 1 < (rowl.length : Int) := by
    rw [hrl]; omega
  have hset1 : pySet rowl (t.col - 1) ch = some (rowl.set (t.col - 1).toNat ch) :=
    pySet_eq _ hj1 hj2
  have hset2 : pySet t.buf (t.row - 1) (rowl.set (t.col - 1).toNat ch) =
      some (t.buf.set (t.row - 1).toNat (rowl.set (t.col - 1).toNat ch)) :=
    pySet_eq _ hi1 hi2
  have hcell : setCell t.buf (t.row - 1).toNat (t.col - 1).toNat ch =
      t.buf.set (t.row - 1).toNat (rowl.set (t.col - 1).toNat ch) := by
    unfold setCell
    rw [hrowl']
  unfold putc
  rw [hrowl]
  dsimp only
  rw [hset1]
  dsimp only
  rw [hset2]
  dsimp only
  rw [if_pos rfl]
  rw [show ∀ u : Term, Terminal.move u (some u.row) (some (u.col + 1)) false =
      moveNorm u u.row (u.col + 1) from fun u => rfl]
  rw [moveNorm_in_region (t := { t with
      buf := t.buf.set (t.row - 1).toNat (rowl.set (t.col - 1).toNat ch) })
    hrtop hrbot (by omega) hc2]
  rw [hcell]

lemma eraseCols_spec {r : Int} :
    ∀ (n : Nat) (c : Int) (t : Term), Shape t →
      1 ≤ t.scroll.1 → t.scroll.1 ≤ r → r ≤ t.scroll.2 → t.scroll.2 ≤ (t.rows : Int) →
      1 ≤ c → c + n ≤ (t.cols : Int) →
      ∃ t', eraseCols r c n t = some t' ∧
        t'.cols = t.cols ∧ t'.rows = t.rows ∧ t'.scroll = t.scroll ∧
        t'.pending = t.pending ∧ Shape t' ∧
        ∀ i j : Nat, cellB t'.buf i j =
          if (i : Int) = r - 1 ∧ c ≤ (j : Int) + 1 ∧ (j : Int) + 1 < c + n then some ' '
          else cellB t.buf i j := by
  intro n
  induction n with
  | zero =>
    intro c t hs _ _ _ _ _ _
    refine ⟨t, rfl, rfl, rfl, rfl, rfl, hs, fun i j => ?_⟩
    rw [if_neg (by omega)]
  | succ m ih =>
    intro c t hs htop1 hrtop hrbot hbotn hc1 hcn
    have hmv : Terminal.move t (some r) (some c) false = some { t with row := r, col := c } :=
      move_abs hrtop hrbot hc1 (by omega)
    have hput := putc_write_move (t := { t with row := r, col := c }) hs ' '
      htop1 hrtop hrbot hbotn hc1 (by show c + 1 ≤ (t.cols : Int); omega)
    have hput2 : putc { t with row := r, col := c } ' ' true =
        some { t with
          row := r, col := c + 1, buf := setCell t.buf (r - 1).toNat (c - 1).toNat ' ' } := hput
    have hputs : Terminal.puts { t with row := r, col := c } [' '] true =
        some { t with
          row := r, col := c + 1, buf := setCell t.buf (r - 1).toNat (c - 1).toNat ' ' } := by
      unfold Terminal.puts
      rw [hput2]
      rfl
    have hstep : eraseCols r c (m + 1) t =
        eraseCols r (c + 1) m { t with
          row := r, col := c + 1, buf := setCell t.buf (r - 1).toNat (c - 1).toNat ' ' } := by
      conv_lhs => unfold eraseCols
      rw [hmv]
      dsimp only
      rw [hputs]
    have hsh2 : Shape ({ t with
        row := r, col := c + 1, buf := setCell t.buf (r - 1).toNat (c - 1).toNat ' ' } : Term) :=
      setCell_wf hs _ _ _
    obtain ⟨t', h1, hcols', hrows', hscr', hpend', hsh', hcells'⟩ :=
      ih (c + 1) { t with
          row := r, col := c + 1, buf := setCell t.buf (r - 1).toNat (c - 1).toNat ' ' }
        hsh2 htop1 hrtop hrbot hbotn (by show (1:Int) ≤ c + 1; omega)
        (by show c + 1 + (m : Int) ≤ (t.cols : Int); omega)
    have hk : (r - 1).toNat < t.buf.length := by
      rw [hs.1]; omega
    obtain ⟨rowl, hget⟩ : ∃ rowl, t.buf.get? (r - 1).toNat = some rowl :=
      ⟨_, List.get?_eq_get hk⟩
    have hjlt : (c - 1).toNat < rowl.length := by
      rw [hs.2 rowl (List.get?_mem hget)]; omega
    refine ⟨t', by rw [hstep]; exact h1, hcols', hrows', hscr', hpend', hsh', fun i j => ?_⟩
    rw [hcells' i j]
    dsimp only
    rw [cellB_setCell hget hjlt i j]
    split_ifs <;> first | rfl | omega

lemma eraseRows_spec {c1 c2 : Int} :
    ∀ (n : Nat) (r : Int) (t : Term), Shape t →
      1 ≤ t.scroll.1 → t.scroll.1 ≤ r → r + n ≤ t.scroll.2 + 1 → t.scroll.2 ≤ (t.rows : Int) →
      1 ≤ c1 → c1 ≤ c2 → c2 ≤ (t.cols : Int) →
      ∃ t', eraseRows c1 c2 r n t = some t' ∧
        t'.cols = t.cols ∧ t'.rows = t.rows ∧ t'.scroll = t.scroll ∧
        t'.pending = t.pending ∧ Shape t' ∧
        ∀ i j : Nat, cellB t'.buf i j =
          if r ≤ (i : Int) + 1 ∧ (i : Int) + 1 < r + n ∧ c1 ≤ (j : Int) + 1 ∧ (j : Int) + 1 < c2
          then some ' ' else cellB t.buf i j := by
  intro n
  induction n with
  | zero =>
    intro r t hs _ _ _ _ _ _ _
    refine ⟨t, rfl, rfl, rfl, rfl, rfl, hs, fun i j => ?_⟩
    rw [if_neg (by omega)]
  | succ m ih =>
    intro r t hs htop1 hrtop hrn hbotn hc1 hcc hc2
    obtain ⟨t1, e1, f1c, f1r, f1s, f1p, sh1, cells1⟩ :=
      eraseCols_spec (r := r) ((c2 - c1).toNat) c1 t hs htop1 hrtop (by omega) hbotn hc1
        (by rw [Int.toNat_of_nonneg (by omega)]; omega)
    have hstep : eraseRows c1 c2 r (m + 1) t = eraseRows c1 c2 (r + 1) m t1 := by
      conv_lhs => unfold eraseRows
      rw [e1]
    obtain ⟨t', e2, f2c, f2r, f2s, f2p, sh2, cells2⟩ :=
      ih (r + 1) t1 sh1 (by rw [f1s]; exact htop1) (by rw [f1s]; omega)
        (by rw [f1s]; omega) (by rw [f1s, f1r]; exact hbotn) hc1 hcc
        (by rw [f1c]; exact hc2)
    have hcast : c1 + (((c2 - c1).toNat : Nat) : Int) = c2 := by
      rw [Int.toNat_of_nonneg (by omega)]; ring
    refine ⟨t', by rw [hstep]; exact e2, f2c.trans f1c, f2r.trans f1r, f2s.trans f1s,
      f2p.trans f1p, sh2, fun i j => ?_⟩
    rw [cells2 i j, cells1 i j, hcast]
    split_ifs <;> first | rfl | omega

lemma erase_spec {t : Term} {r1 c1 r2 c2 : Int} (hs : Shape t)
    (htop : 1 ≤ t.scroll.1) (hbot : t.scroll.2 ≤ (t.rows : Int))
    (hr1 : t.scroll.1 ≤ r1) (hrr : r1 ≤ r2) (hr2 : r2 ≤ t.scroll.2 + 1)
    (hc1 : 1 ≤ c1) (hcc : c1 ≤ c2) (hc2 : c2 ≤ (t.cols : Int)) :
    ∃ t', Terminal.erase t (r1, c1) (r2, c2) = some t' ∧
      t'.row = t.row ∧ t'.col = t.col ∧ t'.cols = t.cols ∧ t'.rows = t.rows ∧
      t'.scroll = t.scroll ∧ t'.pending = t.pending ∧ Shape t' ∧
      ∀ i j : Nat, cell t' i j =
        if r1 ≤ (i : Int) + 1 ∧ (i : Int) + 1 < r2 ∧ c1 ≤ (j : Int) + 1 ∧ (j : Int) + 1 < c2
        then some ' ' else cell t i j := by
  obtain ⟨u, e1, fc, fr, fs, fp, sh, cells⟩ :=
    @eraseRows_spec c1 c2 ((r2 - r1).toNat) r1 t hs htop hr1
      (by rw [Int.toNat_of_nonneg (by omega)]; omega) hbot hc1 hcc hc2
  have hcast : r1 + (((r2 - r1).toNat : Nat) : Int) = r2 := by
    rw [Int.toNat_of_nonneg (by omega)]; ring
  refine ⟨{ u with row := t.row, col := t.col }, ?_, rfl, rfl, fc, fr, fs, fp, sh,
    fun i j => ?_⟩
  · unfold Terminal.erase
    dsimp only
    rw [e1]
    rfl
  · show cellB u.buf i j = _
    rw [cells i j, hcast]
    rfl

/-- C7 (amended).  For a rectangle whose rows all lie inside the active
scroll region and whose column range stays within the grid
(`end.col ≤ cols`), `erase(start, end)` blanks exactly the half-open
rectangle `[start.row, end.row) × [start.col, end.col)`, leaves every other
cell unchanged, and restores the original cursor afterward.  (Without the
region restriction the internal `move` calls clamp and scroll, mutating
rows outside the rectangle.) -/
theorem c7_erase_amended (t t' : Term) (r1 c1 r2 c2 : Int) (hs : Shape t)
    (htop : 1 ≤ t.scroll.1) (hbot : t.scroll.2 ≤ (t.rows : Int))
    (hr1 : t.scroll.1 ≤ r1) (hrr : r1 ≤ r2) (hr2 : r2 ≤ t.scroll.2 + 1)
    (hc1 : 1 ≤ c1) (hcc : c1 ≤ c2) (hc2 : c2 ≤ (t.cols : Int))
    (hres : Terminal.erase t (r1, c1) (r2, c2) = some t') :
    t'.row = t.row ∧ t'.col = t.col ∧
    ∀ i j : Nat, cell t' i j =
      if r1 ≤ (i : Int) + 1 ∧ (i : Int) + 1 < r2 ∧ c1 ≤ (j : Int) + 1 ∧ (j : Int) + 1 < c2
      then some ' ' else cell t i j := by
  obtain ⟨u, e, hrow, hcol, _, _, _, _, _, hcells⟩ :=
    erase_spec hs htop hbot hr1 hrr hr2 hc1 hcc hc2
  rw [hres] at e
  have : t' = u := by
    injection e
  subst this
  exact ⟨hrow, hcol, hcells⟩

/-- The grid of `tC7` after erasing the one-cell rectangle at (1, 2). -/
def wC7 : Term :=
  { tC7 with buf := [['a', ' ', 'c'], ['d', 'e', 'f'], ['g', 'h', 'i']] }

/-- Witness for the amended C7: erasing `[1, 2) × [2, 3)` on `tC7` (whose
scroll region is (1, 2)) blanks exactly cell (1, 2) and keeps the cursor. -/
theorem c7_erase_amended_witness :
    Terminal.erase tC7 (1, 2) (2, 3) = some wC7 ∧
    wC7.row = tC7.row ∧ wC7.col = tC7.col ∧
    cell wC7 0 1 = some ' ' ∧ cell wC7 0 0 = cell tC7 0 0 ∧
    cell wC7 0 2 = cell tC7 0 2 ∧ cell wC7 1 1 = cell tC7 1 1 := by
  have he : Terminal.erase tC7 (1, 2) (2, 3) = some wC7 := by decide
  have h := c7_erase_amended tC7 wC7 1 2 2 3 (by decide) (by decide) (by decide)
    (by decide) (by decide) (by decide) (by decide) (by decide) (by decide) he
  refine ⟨he, h.1, h.2.1, ?_, ?_, ?_, ?_⟩
  · exact (h.2.2 0 1).trans (by decide)
  · exact (h.2.2 0 0).trans (by decide)
  · exact (h.2.2 0 2).trans (by decide)
  · exact (h.2.2 1 1).trans (by decide)

/-- C10.  Processing `ESC [ K` with the cursor at `(r, c)`, `r` inside the
active scroll region and `1 ≤ c ≤ cols`, blanks row `r` in columns `c`
through `cols - 1` only: the last column of row `r` keeps its previous
content and every other row is unchanged. -/
theorem c10_erase_line (t t' : Term) (hs : Shape t) (hpend : t.pending = [])
    (htop : 1 ≤ t.scroll.1) (hrtop : t.scroll.1 ≤ t.row) (hrbot : t.row ≤ t.scroll.2)
    (hbot : t.scroll.2 ≤ (t.rows : Int)) (hc1 : 1 ≤ t.col) (hc2 : t.col ≤ (t.cols : Int))
    (h : VT100.append t [ESC, '[', 'K'] = some t') :
    (∀ j : Nat, t.col ≤ (j : Int) + 1 → (j : Int) + 1 ≤ (t.cols : Int) - 1 →
        cell t' (t.row - 1).toNat j = some ' ') ∧
    cell t' (t.row - 1).toNat (t.cols - 1) = cell t (t.row - 1).toNat (t.cols - 1) ∧
    (∀ i j : Nat, (i : Int) ≠ t.row - 1 → cell t' i j = cell t i j) := by
  have hrow1 : 1 ≤ t.row := le_trans htop hrtop
  have hcols1 : 1 ≤ (t.cols : Int) := le_trans hc1 hc2
  obtain ⟨u, e, hurow, hucol, _, _, _, _, ush, hcells⟩ :=
    @erase_spec { t with pending := [] } t.row t.col
      (t.row + 1) ((t.cols : Int)) hs htop hbot hrtop
      (by show t.row ≤ t.row + 1; omega) (by show t.row + 1 ≤ t.scroll.2 + 1; omega)
      hc1 hc2 (le_refl ((t.cols : Int)))
  have hseq : ∀ v : Term, VT100.sequence v [ESC, '[', 'K'] =
      (Terminal.erase v (v.row, v.col) (v.row + 1, (v.cols : Int))).map (fun w => (w, 3)) :=
    fun v => rfl
  have hpre : VT100.pre { t with pending := [] } [ESC, '[', 'K'] = some (u, some 3) := by
    rw [show VT100.pre { t with pending := [] } [ESC, '[', 'K'] =
        (VT100.sequence { t with pending := [] } [ESC, '[', 'K']).map
          (fun p => (p.1, some p.2)) from rfl]
    rw [hseq _]
    dsimp only
    rw [e]
    rfl
  have happ : loopF 3 { t with pending := [] } [ESC, '[', 'K'] = some t' := by
    rw [← h]
    simp only [VT100.append, hpend]
    rfl
  rw [@loopF_step 2 _ _ _ _ _ hpre (by omega)] at happ
  simp only [List.drop_succ_cons, List.drop_nil, loopF, Option.some.injEq] at happ
  subst happ
  refine ⟨fun j hj1 hj2 => ?_, ?_, fun i j hdiff => ?_⟩
  · rw [hcells _ j, if_pos (by omega)]
  · rw [hcells _ _, if_neg (by omega)]
    rfl
  · rw [hcells i j, if_neg (by omega)]
    rfl

/-- A populated 3x2 terminal with the cursor at (1, 2). -/
def wC10 : Term :=
  { cols := 3, rows := 2, scroll := (1, 2), row := 1, col := 2,
    buf := [['a', 'b', 'c'], ['d', 'e', 'f']], pending := [] }

/-- `wC10` after `ESC [ K`: only cell (1, 2) is blanked. -/
def wC10r : Term := { wC10 with buf := [['a', ' ', 'c'], ['d', 'e', 'f']] }

/-- Witness for C10 on a concrete populated terminal. -/
theorem c10_erase_line_witness :
    VT100.append wC10 [ESC, '[', 'K'] = some wC10r ∧
    cell wC10r 0 1 = some ' ' ∧
    cell wC10r 0 2 = cell wC10 0 2 ∧
    cell wC10r 1 0 = cell wC10 1 0 := by
  have e : VT100.append wC10 [ESC, '[', 'K'] = some wC10r := by decide
  have h := c10_erase_line wC10 wC10r (by decide) rfl (by decide) (by decide) (by decide)
    (by decide) (by decide) (by decide) e
  refine ⟨e, ?_, ?_, ?_⟩
  · exact h.1 1 (by decide) (by decide)
  · exact h.2.1
  · exact h.2.2 1 0 (by decide)

/-! Plain-character runs, for the cursor-wrap property. -/

/-- A plain character: not the escape introducer and not one of the bare
control characters handled by `pre`. -/
def Plain (c : Char) : Prop :=
  c ≠ ESC ∧ c ≠ '\x08' ∧ c ≠ '\x0d' ∧ c ≠ '\x0a' ∧ c ≠ '\x07'

instance : DecidablePred Plain := fun c => by
  unfold Plain; infer_instance

lemma pre_plain {t : Term} {c : Char} (hp : Plain c) (rest : List Char) :
    VT100.pre t (c :: rest) = some (t, none) := by
  unfold VT100.pre
  dsimp only
  rw [if_neg hp.1, if_neg hp.2.1, if_neg hp.2.2.1, if_neg hp.2.2.2.1, if_neg hp.2.2.2.2]

lemma puts_one {t u : Term} {c : Char} (h : putc t c true = some u) :
    Terminal.puts t [c] true = some u := by
  unfold Terminal.puts
  rw [h]
  rfl

/-- An in-bounds write in the last column: the cursor advance wraps to
column 1 of the next row (which stays inside the scroll region). -/
lemma putc_write_wrap {t : Term} (hs : Shape t) (ch : Char)
    (htop1 : 1 ≤ t.scroll.1) (hrtop : t.scroll.1 ≤ t.row) (hrbot : t.row ≤ t.scroll.2)
    (hbotn : t.scroll.2 ≤ (t.rows : Int)) (hrbot2 : t.row + 1 ≤ t.scroll.2)
    (hcol : t.col = (t.cols : Int)) (hc1 : 1 ≤ t.col) :
    putc t ch true = some { t with
      buf := setCell t.buf (t.row - 1).toNat (t.col - 1).toNat ch,
      row := t.row + 1, col := 1 } := by
  have hi1 : (0 : Int) ≤ t.row - 1 := by omega
  have hi2 : t.row - 1 < (t.buf.length : Int) := by
    rw [hs.1]; omega
  have hk : (t.row - 1).toNat < t.buf.length := by omega
  obtain ⟨rowl, hrowl'⟩ : ∃ rowl, t.buf.get? (t.row - 1).toNat = some rowl :=
    ⟨_, List.get?_eq_get hk⟩
  have hrowl : pyGet t.buf (t.row - 1) = some rowl := by
    rw [pyGet_eq hi1 hi2, hrowl']
  have hrl : rowl.length = t.cols := hs.2 rowl (pyGet_mem hrowl)
  have hj1 : (0 : Int) ≤ t.col - 1 := by omega
  have hj2 : t.col - 1 < (rowl.length : Int) := by
    rw [hrl]; omega
  have hset1 : pySet rowl (t.col - 1) ch = some (rowl.set (t.col - 1).toNat ch) :=
    pySet_eq _ hj1 hj2
  have hset2 : pySet t.buf (t.row - 1) (rowl.set (t.col - 1).toNat ch) =
      some (t.buf.set (t.row - 1).toNat (rowl.set (t.col - 1).toNat ch)) :=
    pySet_eq _ hi1 hi2
  have hcell : setCell t.buf (t.row - 1).toNat (t.col - 1).toNat ch =
      t.buf.set (t.row - 1).toNat (rowl.set (t.col - 1).toNat ch) := by
    unfold setCell
    rw [hrowl']
  unfold putc
  rw [hrowl]
  dsimp only
  rw [hset1]
  dsimp only
  rw [hset2]
  dsimp only
  rw [if_pos rfl]
  rw [show ∀ u : Term, Terminal.move u (some u.row) (some (u.col + 1)) false =
      moveNorm u u.row (u.col + 1) from fun u => rfl]
  rw [moveNorm_wrap (t := { t with
      buf := t.buf.set (t.row - 1).toNat (rowl.set (t.col - 1).toNat ch) })
    (by show (t.cols : Int) < t.col + 1; omega)
    (by show t.scroll.1 ≤ t.row + 1; omega) hrbot2]
  rw [hcell]

/-- The pure effect of writing a run of characters left to right on one
row, starting at cell `(i, j)` (0-based). -/
def writeRun : List (List Char) → Nat → Nat → List Char → List (List Char)
  | buf, _, _, [] => buf
  | buf, i, j, ch :: cs => writeRun (setCell buf i j ch) i (j + 1) cs

lemma cellB_writeRun :
    ∀ (u : List Char) (buf : List (List Char)) (i j : Nat) (rowl : List Char),
      buf.get? i = some rowl → j + u.length ≤ rowl.length →
      ∀ i' j' : Nat, cellB (writeRun buf i j u) i' j' =
        if i = i' ∧ j ≤ j' ∧ j' < j + u.length then u.get? (j' - j)
        else cellB buf i' j' := by
  intro u
  induction u with
  | nil =>
    intro buf i j rowl hget hb i' j'
    simp only [List.length_nil]
    rw [if_neg (by omega)]
    rfl
  | cons ch cs ih =>
    intro buf i j rowl hget hb i' j'
    have hi : i < buf.length := (List.get?_eq_some.mp hget).1
    have hget2 : (setCell buf i j ch).get? i = some (rowl.set j ch) := by
      unfold setCell
      rw [hget, listGetSetSame _ _ _ hi]
    have hb2 : (j + 1) + cs.length ≤ (rowl.set j ch).length := by
      rw [List.length_set]
      rw [List.length_cons] at hb
      omega
    have hjr : j < rowl.length := by
      rw [List.length_cons] at hb
      omega
    rw [show writeRun buf i j (ch :: cs) = writeRun (setCell buf i j ch) i (j + 1) cs from rfl,
      ih _ i (j + 1) _ hget2 hb2 i' j', cellB_setCell hget hjr i' j', List.length_cons]
    split_ifs <;>
      first
      | omega
      | rfl
      | (rw [show j' - j = j' - (j + 1) + 1 from by omega]; rfl)
      | (rw [show j' - j = 0 from by omega]; rfl)

lemma loopF_plain_run :
    ∀ (u : List Char) (m : Nat) (t : Term) (v : List Char), Shape t →
      (∀ c ∈ u, Plain c) →
      1 ≤ t.scroll.1 → t.scroll.1 ≤ t.row → t.row ≤ t.scroll.2 → t.scroll.2 ≤ (t.rows : Int) →
      1 ≤ t.col → t.col + u.length ≤ (t.cols : Int) →
      loopF (u.length + m) t (u ++ v) =
        loopF m { t with
          col := t.col + u.length,
          buf := writeRun t.buf (t.row - 1).toNat (t.col - 1).toNat u } v := by
  intro u
  induction u with
  | nil =>
    intro m t v hs _ _ _ _ _ _ _
    rw [List.nil_append,
      show (([] : List Char).length + m) = m by simp,
      show t.col + ((([] : List Char).length : Nat) : Int) = t.col by simp,
      show writeRun t.buf (t.row - 1).toNat (t.col - 1).toNat [] = t.buf from rfl]
  | cons ch cs ih =>
    intro m t v hs hplain htop hrtop hrbot hbot hc1 hcn
    have hput := putc_write_move hs ch htop hrtop hrbot hbot hc1
      (by rw [List.length_cons] at hcn; omega)
    have hp1 : VT100.pre t (ch :: (cs ++ v)) = some (t, none) :=
      pre_plain (hplain ch (List.mem_cons_self _ _)) _
    have hputs := puts_one hput
    have hfuel : (ch :: cs).length + m = (cs.length + m) + 1 := by
      rw [List.length_cons]; omega
    rw [hfuel, List.cons_append, loopF_plain hp1 hputs]
    have hsh2 : Shape ({ t with
        buf := setCell t.buf (t.row - 1).toNat (t.col - 1).toNat ch, col := t.col + 1 } : Term) :=
      setCell_wf hs _ _ _
    rw [ih m { t with
        buf := setCell t.buf (t.row - 1).toNat (t.col - 1).toNat ch, col := t.col + 1 } v
      hsh2 (fun c hc => hplain c (List.mem_cons_of_mem _ hc)) htop hrtop hrbot hbot
      (by show (1 : Int) ≤ t.col + 1; omega)
      (by show t.col + 1 + ((cs.length : Nat) : Int) ≤ (t.cols : Int)
          rw [List.length_cons] at hcn; omega)]
    rw [show ((t.col + 1) - 1).toNat = (t.col - 1).toNat + 1 from by omega,
      show t.col + 1 + ((cs.length : Nat) : Int) = t.col + (((ch :: cs).length : Nat) : Int)
        from by rw [List.length_cons]; push_cast; ring]
    rfl

lemma writeRun_wf {rows cols : Nat} :
    ∀ (u : List Char) (buf : List (List Char)) (i j : Nat), BufWF rows cols buf →
      BufWF rows cols (writeRun buf i j u) := by
  intro u
  induction u with
  | nil => intro buf i j h; exact h
  | cons ch cs ih => intro buf i j h; exact ih _ _ _ (setCell_wf h _ _ _)

lemma shape_new (cols rows : Nat) : Shape (VT100.new cols rows) := by
  constructor
  · exact List.length_replicate _ _
  · intro r hr
    rw [List.eq_of_mem_replicate hr]
    exact List.length_replicate _ _

/-- C8 (amended).  On a terminal with `cols ≥ 2` and `rows ≥ 2` and the
default scroll region, writing `cols + 1` plain characters from a fresh
terminal (cursor at row 1, column 1) leaves the cursor at row 2, column 2;
row 1 holds the first `cols` characters and the `(cols+1)`-th character
sits at row 2, column 1.  (For `cols = 1` the final advance wraps a second
time, so the original claim fails there.) -/
theorem c8_wrap_amended (cols rows : Nat) (s : List Char) (t' : Term)
    (hcols : 2 ≤ cols) (hrows : 2 ≤ rows) (hlen : s.length = cols + 1)
    (hplain : ∀ c ∈ s, Plain c)
    (h : VT100.append (VT100.new cols rows) s = some t') :
    t'.row = 2 ∧ t'.col = 2 ∧
    (∀ j : Nat, j < cols → cell t' 0 j = s.get? j) ∧
    cell t' 1 0 = s.get? cols := by
  obtain ⟨x, y, hw⟩ : ∃ x y, s.drop (cols - 1) = [x, y] := by
    apply List.length_eq_two.mp
    rw [List.length_drop, hlen]
    omega
  have hsplit : s.take (cols - 1) ++ [x, y] = s := by
    rw [← hw, List.take_append_drop]
  have hlen1 : (s.take (cols - 1)).length = cols - 1 := by
    rw [List.length_take]
    omega
  have hxmem : x ∈ s := by
    rw [← hsplit]; simp
  have hymem : y ∈ s := by
    rw [← hsplit]; simp
  have happ : loopF ((s.take (cols - 1)).length + 2) (VT100.new cols rows)
      (s.take (cols - 1) ++ [x, y]) = some t' := by
    rw [show (s.take (cols - 1)).length + 2 = s.length from by rw [hlen1, hlen]; omega,
      hsplit, ← h]
    rfl
  rw [loopF_plain_run (s.take (cols - 1)) 2 (VT100.new cols rows) [x, y]
      (shape_new cols rows) (fun c hc => hplain c (List.take_subset _ _ hc))
      (by show (1:Int) ≤ 1; omega) (by show (1:Int) ≤ 1; omega)
      (by show (1:Int) ≤ (rows : Int); omega) (by show (rows:Int) ≤ (rows:Int); omega)
      (by show (1:Int) ≤ 1; omega)
      (by show (1:Int) + ((s.take (cols - 1)).length : Int) ≤ (cols : Int)
          rw [hlen1]; omega)] at happ
  dsimp only [VT100.new] at happ
  rw [show ((1:Int) - 1).toNat = 0 from rfl,
    show (1:Int) + ((s.take (cols - 1)).length : Int) = (cols:Int) from by rw [hlen1]; omega]
    at happ
  have hsh1 : Shape ({ cols := cols, rows := rows, scroll := (1, (rows : Int)), row := 1, col := (cols : Int), buf := writeRun (List.replicate rows (List.replicate cols ' ')) 0 0 (s.take (cols - 1)), pending := [] } : Term) :=
    writeRun_wf _ _ _ _ (shape_new cols rows)
  have hputx := putc_write_wrap (t := { cols := cols, rows := rows, scroll := (1, (rows : Int)), row := 1, col := (cols : Int), buf := writeRun (List.replicate rows (List.replicate cols ' ')) 0 0 (s.take (cols - 1)), pending := [] }) hsh1 x
    (by show (1:Int) ≤ 1; omega) (by show (1:Int) ≤ 1; omega)
    (by show (1:Int) ≤ (rows:Int); omega) (by show (rows:Int) ≤ (rows:Int); omega)
    (by show (1:Int) + 1 ≤ (rows:Int); omega) rfl
    (by show (1:Int) ≤ (cols:Int); omega)
  have hprex : VT100.pre ({ cols := cols, rows := rows, scroll := (1, (rows : Int)), row := 1, col := (cols : Int), buf := writeRun (List.replicate rows (List.replicate cols ' ')) 0 0 (s.take (cols - 1)), pending := [] } : Term) [x, y] = some (({ cols := cols, rows := rows, scroll := (1, (rows : Int)), row := 1, col := (cols : Int), buf := writeRun (List.replicate rows (List.replicate cols ' ')) 0 0 (s.take (cols - 1)), pending := [] } : Term), none) :=
    pre_plain (hplain x hxmem) _
  rw [@loopF_plain 1 _ _ _ _ _ hprex (puts_one hputx)] at happ
  dsimp only at happ
  rw [show ((cols:Int) - 1).toNat = cols - 1 from by omega,
    show ((1:Int) - 1).toNat = 0 from rfl,
    show (1:Int) + 1 = 2 from rfl] at happ
  have hsh2 : Shape ({ cols := cols, rows := rows, scroll := (1, (rows : Int)), row := 2, col := 1, buf := setCell (writeRun (List.replicate rows (List.replicate cols ' ')) 0 0 (List.take (cols - 1) s)) 0 (cols - 1) x, pending := [] } : Term) :=
    setCell_wf (writeRun_wf _ _ _ _ (shape_new cols rows)) _ _ _
  have hputy := putc_write_move (t := { cols := cols, rows := rows, scroll := (1, (rows : Int)), row := 2, col := 1, buf := setCell (writeRun (List.replicate rows (List.replicate cols ' ')) 0 0 (List.take (cols - 1) s)) 0 (cols - 1) x, pending := [] }) hsh2 y
    (by show (1:Int) ≤ 1; omega) (by show (1:Int) ≤ 2; omega)
    (by show (2:Int) ≤ (rows:Int); omega) (by show (rows:Int) ≤ (rows:Int); omega)
    (by show (1:Int) ≤ 1; omega) (by show (1:Int) + 1 ≤ (cols:Int); omega)
  have hprey : VT100.pre ({ cols := cols, rows := rows, scroll := (1, (rows : Int)), row := 2, col := 1, buf := setCell (writeRun (List.replicate rows (List.replicate cols ' ')) 0 0 (List.take (cols - 1) s)) 0 (cols - 1) x, pending := [] } : Term) [y] = some (({ cols := cols, rows := rows, scroll := (1, (rows : Int)), row := 2, col := 1, buf := setCell (writeRun (List.replicate rows (List.replicate cols ' ')) 0 0 (List.take (cols - 1) s)) 0 (cols - 1) x, pending := [] } : Term), none) :=
    pre_plain (hplain y hymem) _
  rw [@loopF_plain 0 _ _ _ _ _ hprey (puts_one hputy)] at happ
  dsimp only at happ
  rw [show ((2:Int) - 1).toNat = 1 from rfl, show ((1:Int) - 1).toNat = 0 from rfl] at happ
  simp only [loopF, Option.some.injEq] at happ
  subst happ
  set W1 : List (List Char) :=
    writeRun (List.replicate rows (List.replicate cols ' ')) 0 0 (List.take (cols - 1) s) with hW1
  have hWwf : BufWF rows cols W1 := writeRun_wf _ _ _ _ (shape_new cols rows)
  obtain ⟨w0, hw0⟩ : ∃ r, W1.get? 0 = some r :=
    ⟨_, List.get?_eq_get (by rw [hWwf.1]; omega)⟩
  have hw0len : w0.length = cols := hWwf.2 _ (List.get?_mem hw0)
  have hbase : (List.replicate rows (List.replicate cols ' ')).get? 0 =
      some (List.replicate cols ' ') := by
    rw [List.get?_eq_get (by rw [List.length_replicate]; omega), List.get_replicate]
  have hWcell := cellB_writeRun (List.take (cols - 1) s)
      (List.replicate rows (List.replicate cols ' ')) 0 0 (List.replicate cols ' ')
      hbase (by rw [List.length_replicate, hlen1]; omega)
  have hXcell := @cellB_setCell _ _ _ x _ hw0 (show cols - 1 < w0.length by omega)
  set W2 : List (List Char) := setCell W1 0 (cols - 1) x with hW2
  have hW2wf : BufWF rows cols W2 := setCell_wf hWwf _ _ _
  obtain ⟨w1, hw1⟩ : ∃ r, W2.get? 1 = some r :=
    ⟨_, List.get?_eq_get (by rw [hW2wf.1]; omega)⟩
  have hw1len : w1.length = cols := hW2wf.2 _ (List.get?_mem hw1)
  have hYcell := @cellB_setCell _ _ _ y _ hw1 (show (0 : Nat) < w1.length by omega)
  refine ⟨rfl, rfl, fun j hj => ?_, ?_⟩
  · show cellB (setCell W2 1 0 y) 0 j = s.get? j
    rw [hYcell 0 j, if_neg (by omega), hXcell 0 j]
    by_cases hje : j = cols - 1
    · subst hje
      rw [if_pos ⟨rfl, rfl⟩]
      have h3 := List.get?_drop s (cols - 1) 0
      rw [hw] at h3
      rw [show cols - 1 + 0 = cols - 1 from rfl] at h3
      rw [← h3]
      rfl
    · rw [if_neg (by omega), hWcell 0 j, if_pos (by omega)]
      rw [show j - 0 = j from rfl]
      exact List.get?_take (by omega)
  · show cellB (setCell W2 1 0 y) 1 0 = s.get? cols
    rw [hYcell 1 0, if_pos ⟨rfl, rfl⟩]
    have h3 := List.get?_drop s (cols - 1) 1
    rw [hw] at h3
    rw [show cols - 1 + 1 = cols from by omega] at h3
    rw [← h3]
    rfl

/-- `VT100(3, 2)` after the four plain characters `w v u z`. -/
def wC8 : Term :=
  { cols := 3, rows := 2, scroll := (1, 2), row := 2, col := 2,
    buf := [['w', 'v', 'u'], ['z', ' ', ' ']], pending := [] }

/-- Witness for the amended C8 at cols = 3, rows = 2, input `"wvuz"`. -/
theorem c8_wrap_amended_witness :
    VT100.append (VT100.new 3 2) ['w', 'v', 'u', 'z'] = some wC8 ∧
    wC8.row = 2 ∧ wC8.col = 2 ∧
    cell wC8 0 0 = some 'w' ∧ cell wC8 0 2 = some 'u' ∧ cell wC8 1 0 = some 'z' := by
  have e : VT100.append (VT100.new 3 2) ['w', 'v', 'u', 'z'] = some wC8 := by decide
  have h := c8_wrap_amended 3 2 ['w', 'v', 'u', 'z'] wC8 (by omega) (by omega) rfl
    (by decide) e
  refine ⟨e, h.1, h.2.1, ?_, ?_, ?_⟩
  · exact (h.2.2.1 0 (by omega)).trans (by decide)
  · exact (h.2.2.1 2 (by omega)).trans (by decide)
  · exact h.2.2.2.trans (by decide)

/-! ## Chunked input: matched-length bounds and the append homomorphism. -/

lemma matchNumLetter_le {ch : Char} {ctx : List Char} {v : Int} {len : Nat}
    (h : matchNumLetter ch ctx = some (v, len)) : len ≤ ctx.length := by
  unfold matchNumLetter at h
  split at h
  · dsimp only at h
    split at h
    · exact absurd h (by simp)
    · split at h
      · split at h
        · rename_i c tail heq hcc
          simp only [Option.some.injEq, Prod.mk.injEq] at h
          have hlen := congrArg List.length heq
          rw [List.length_drop, List.length_cons] at hlen
          simp only [List.length_cons]
          omega
        · exact absurd h (by simp)
      · exact absurd h (by simp)
  · exact absurd h (by simp)

lemma matchNumPair_le {fins : List Char} {ctx : List Char} {v w : Int} {len : Nat}
    (h : matchNumPair fins ctx = some (v, w, len)) : len ≤ ctx.length := by
  unfold matchNumPair at h
  split at h
  · dsimp only at h
    split at h
    · exact absurd h (by simp)
    · split at h
      · rename_i r2 heq1
        split at h
        · exact absurd h (by simp)
        · split at h
          · rename_i c tail heq2
            split at h
            · simp only [Option.some.injEq, Prod.mk.injEq] at h
              have hlen1 := congrArg List.length heq1
              have hlen2 := congrArg List.length heq2
              rw [List.length_drop, List.length_cons] at hlen1
              rw [List.length_drop, List.length_cons] at hlen2
              simp only [List.length_cons]
              omega
            · exact absurd h (by simp)
          · exact absurd h (by simp)
      · exact absurd h (by simp)
  · exact absurd h (by simp)

lemma matchPrivateH_le {ctx : List Char} {len : Nat}
    (h : matchPrivateH ctx = some len) : len ≤ ctx.length := by
  unfold matchPrivateH at h
  split at h
  · dsimp only at h
    split at h
    · exact absurd h (by simp)
    · split at h
      · split at h
        · rename_i c tail heq hcc
          simp only [Option.some.injEq] at h
          have hlen := congrArg List.length heq
          rw [List.length_drop, List.length_cons] at hlen
          simp only [List.length_cons]
          omega
        · exact absurd h (by simp)
      · exact absurd h (by simp)
  · exact absurd h (by simp)

lemma matchColorM_le {ctx : List Char} {len : Nat}
    (h : matchColorM ctx = some len) : len ≤ ctx.length := by
  unfold matchColorM at h
  split at h
  · dsimp only at h
    split at h
    · rename_i c tail heq
      split at h
      · simp only [Option.some.injEq] at h
        have hlen := congrArg List.length heq
        rw [List.length_drop, List.length_cons] at hlen
        simp only [List.length_cons]
        omega
      · exact absurd h (by simp)
    · exact absurd h (by simp)
  · exact absurd h (by simp)

lemma matchLit_le {s ctx : List Char} {len : Nat}
    (h : matchLit s ctx = some len) : len ≤ ctx.length := by
  unfold matchLit at h
  split at h
  · rename_i heq
    simp only [Option.some.injEq] at h
    subst h
    have hlen := congrArg List.length heq
    rw [List.length_take] at hlen
    omega
  · exact absurd h (by simp)

lemma controlTable_le {ctx : List Char} {e : Eff} {len : Nat}
    (h : controlTable ctx = some (e, len)) : len ≤ ctx.length := by
  unfold controlTable at h
  obtain ⟨f, hf, hfe⟩ := List.exists_of_findSome?_eq_some h
  simp only [controlRules, List.mem_cons, List.not_mem_nil, or_false] at hf
  rcases hf with rfl | rfl | rfl | rfl | rfl | rfl | rfl | rfl | rfl | rfl | rfl |
    rfl | rfl | rfl | rfl | rfl | rfl | rfl | rfl | rfl | rfl | rfl <;>
  · simp only [Option.map_eq_some'] at hfe
    obtain ⟨p, hp, hpe⟩ := hfe
    rw [Prod.mk.injEq] at hpe
    obtain ⟨-, rfl⟩ := hpe
    first
      | exact matchNumLetter_le hp
      | exact matchNumPair_le hp
      | exact matchPrivateH_le hp
      | exact matchColorM_le hp
      | exact matchLit_le hp

lemma sequence_le {t t' : Term} {s : List Char} {n : Nat}
    (h : VT100.sequence t s = some (t', n)) : n ≤ 10 := by
  unfold VT100.sequence at h
  dsimp only at h
  split at h
  · simp only [Option.some.injEq, Prod.mk.injEq] at h
    omega
  · cases hc : controlTable ((s.drop 1).take 9) with
    | none =>
      rw [hc] at h
      simp only [Option.some.injEq, Prod.mk.injEq] at h
      omega
    | some p =>
      obtain ⟨e, len⟩ := p
      rw [hc] at h
      dsimp only at h
      have hle := controlTable_le hc
      have h9 : ((s.drop 1).take 9).length ≤ 9 := by
        rw [List.length_take]
        exact Nat.min_le_left _ _
      cases ha : applyEff t e with
      | none => rw [ha] at h; simp at h
      | some u =>
        rw [ha] at h
        simp only [Option.map_some', Option.some.injEq, Prod.mk.injEq] at h
        omega

lemma pre_consumed {t t1 : Term} {c : Char} {rest : List Char} {nn : Nat}
    (h : VT100.pre t (c :: rest) = some (t1, some nn)) :
    (c = ESC ∧ nn ≤ 10) ∨ nn = 1 := by
  unfold VT100.pre at h
  dsimp only at h
  by_cases hc : c = ESC
  · rw [if_pos hc] at h
    cases hq : VT100.sequence t (c :: rest) with
    | none => rw [hq] at h; simp at h
    | some p =>
      rw [hq] at h
      simp only [Option.map_some', Option.some.injEq, Prod.mk.injEq,
        Option.some.injEq] at h
      left
      refine ⟨hc, ?_⟩
      have hq2 : VT100.sequence t (c :: rest) = some (p.1, p.2) := hq
      have := sequence_le hq2
      omega
  · rw [if_neg hc] at h
    right
    split at h
    · cases hp : putc { t with col := max 0 (t.col - 1) } ' ' false with
      | none => rw [hp] at h; simp at h
      | some u =>
        rw [hp] at h
        simp only [Option.map_some', Option.some.injEq, Prod.mk.injEq,
          Option.some.injEq] at h
        omega
    · split at h
      · cases hm : Terminal.move t none (some 1) false with
        | none => rw [hm] at h; simp at h
        | some u =>
          rw [hm] at h
          simp only [Option.map_some', Option.some.injEq, Prod.mk.injEq,
            Option.some.injEq] at h
          omega
      · split at h
        · cases hm : Terminal.move t (some (t.row + 1)) (some 1) false with
          | none => rw [hm] at h; simp at h
          | some u =>
            rw [hm] at h
            simp only [Option.map_some', Option.some.injEq, Prod.mk.injEq,
              Option.some.injEq] at h
            omega
        · split at h
          · simp only [Option.some.injEq, Prod.mk.injEq, Option.some.injEq] at h
            omega
          · simp only [Option.some.injEq, Prod.mk.injEq] at h
            exact absurd h.2 (by simp)

lemma sequence_ctx {t : Term} {s1 s2 : List Char}
    (h : (s1.drop 1).take 9 = (s2.drop 1).take 9) :
    VT100.sequence t s1 = VT100.sequence t s2 := by
  unfold VT100.sequence
  rw [h]

lemma pre_append {t : Term} {c : Char} {rest b : List Char}
    (hesc : c = ESC → 9 ≤ rest.length) :
    VT100.pre t (c :: (rest ++ b)) = VT100.pre t (c :: rest) := by
  by_cases hc : c = ESC
  · have h9 := hesc hc
    unfold VT100.pre
    dsimp only
    rw [if_pos hc, if_pos hc]
    have hctx : ((c :: (rest ++ b)).drop 1).take 9 = ((c :: rest).drop 1).take 9 := by
      simp only [List.drop_succ_cons, List.drop_zero]
      exact List.take_append_of_le_length h9
    rw [sequence_ctx hctx]
  · unfold VT100.pre
    dsimp only
    rw [if_neg hc, if_neg hc]

/-- No escape introducer occurs among the last 9 characters of the fragment:
every `ESC` at index `k` still has a full 9-character lookahead window (and
hence a complete sequence) inside the fragment itself. -/
def NoLateEsc (d : List Char) : Prop :=
  ∀ k, k < d.length → d.get? k = some ESC → k + 10 ≤ d.length

instance : DecidablePred NoLateEsc := fun d => by
  unfold NoLateEsc
  infer_instance

lemma noLateEsc_drop {d : List Char} (h : NoLateEsc d) (n : Nat) :
    NoLateEsc (d.drop n) := by
  intro k hk hesc
  rw [List.length_drop] at hk ⊢
  have h2 : d.get? (n + k) = some ESC := by
    rw [← List.get?_drop]
    exact hesc
  have := h (n + k) (by omega) h2
  omega

lemma loopF_fuel :
    ∀ (m : Nat) (d : List Char) (t : Term) (m' : Nat),
      d.length ≤ m → d.length ≤ m' → loopF m t d = loopF m' t d := by
  intro m
  induction m with
  | zero =>
    intro d t m' h1 _
    have hd : d = [] := List.length_eq_zero.mp (by omega)
    subst hd
    cases m' <;> rfl
  | succ k ih =>
    intro d t m' h1 h2
    cases d with
    | nil => cases m' <;> rfl
    | cons c rest =>
      simp only [List.length_cons] at h1 h2
      cases m' with
      | zero => omega
      | succ j =>
        simp only [loopF]
        cases hp : VT100.pre t (c :: rest) with
        | none => rfl
        | some pr =>
          obtain ⟨t1, r1⟩ := pr
          cases r1 with
          | some n =>
            dsimp only
            by_cases hn : n = 0
            · rw [if_pos hn, if_pos hn]
              by_cases hd : rest.length + 1 ≤ 7
              · rw [if_pos hd, if_pos hd]
              · rw [if_neg hd, if_neg hd]
                exact ih rest t1 j (by omega) (by omega)
            · rw [if_neg hn, if_neg hn]
              refine ih _ t1 j ?_ ?_ <;>
                · rw [List.length_drop, List.length_cons]
                  omega
          | none =>
            dsimp only
            cases hq : Terminal.puts t [c] true with
            | none => rfl
            | some t2 => exact ih rest t2 j (by omega) (by omega)

lemma loopF_pending :
    ∀ (fuel : Nat) (d : List Char) (t t1 : Term), Shape t → NoLateEsc d →
      loopF fuel t d = some t1 → t1.pending = t.pending := by
  intro fuel
  induction fuel with
  | zero =>
    intro d t t1 _ _ h
    cases d with
    | nil =>
      simp only [loopF, Option.some.injEq] at h
      subst h; rfl
    | cons c rest => simp [loopF] at h
  | succ m ih =>
    intro d t t1 hs hesc h
    cases d with
    | nil =>
      simp only [loopF, Option.some.injEq] at h
      subst h; rfl
    | cons c rest =>
      simp only [loopF] at h
      cases hp : VT100.pre t (c :: rest) with
      | none => rw [hp] at h; simp at h
      | some pr =>
        obtain ⟨t2, r2⟩ := pr
        rw [hp] at h
        have hpp := pres_pre hs (c :: rest) t2 r2 hp
        cases r2 with
        | some n =>
          dsimp only at h
          by_cases hn : n = 0
          · rw [if_pos hn] at h
            by_cases hd : rest.length + 1 ≤ 7
            · exfalso
              have hc : c = ESC := by
                rcases pre_consumed (hn ▸ hp) with ⟨h1, -⟩ | h1
                · exact h1
                · omega
              subst hc
              have h10 := hesc 0 (by simp) rfl
              simp only [List.length_cons] at h10
              omega
            · rw [if_neg hd] at h
              have := ih rest t2 t1 hpp.1 (noLateEsc_drop hesc 1) h
              exact this.trans hpp.2.2.2
          · rw [if_neg hn] at h
            have := ih _ t2 t1 hpp.1 (noLateEsc_drop hesc n) h
            exact this.trans hpp.2.2.2
        | none =>
          dsimp only at h
          cases hq : Terminal.puts t [c] true with
          | none => rw [hq] at h; simp at h
          | some t3 =>
            rw [hq] at h
            have h2 := pres_puts hs [c] true t3 hq
            have := ih rest t3 t1 h2.1 (noLateEsc_drop hesc 1) h
            exact this.trans h2.2.2.2

lemma loopF_split (b : List Char) :
    ∀ (n : Nat) (d : List Char) (t : Term), d.length ≤ n → NoLateEsc d →
      loopF (n + b.length) t (d ++ b) =
        (loopF n t d).bind fun t1 => loopF b.length t1 b := by
  intro n
  induction n with
  | zero =>
    intro d t hle _
    have hd : d = [] := List.length_eq_zero.mp (by omega)
    subst hd
    rw [List.nil_append, Nat.zero_add]
    rfl
  | succ m ih =>
    intro d t hle hesc
    cases d with
    | nil =>
      rw [List.nil_append]
      have h1 : loopF (m + 1) t [] = some t := rfl
      rw [h1, Option.some_bind]
      exact loopF_fuel (m + 1 + b.length) b t b.length (by omega) (le_refl _)
    | cons c rest =>
      simp only [List.length_cons] at hle
      have hpre : VT100.pre t (c :: (rest ++ b)) = VT100.pre t (c :: rest) :=
        pre_append fun hc => by
          subst hc
          have := hesc 0 (by simp) rfl
          simp only [List.length_cons] at this
          omega
      rw [show m + 1 + b.length = (m + b.length) + 1 from by omega, List.cons_append]
      simp only [loopF]
      rw [hpre]
      cases hp : VT100.pre t (c :: rest) with
      | none => rfl
      | some pr =>
        obtain ⟨t1, r1⟩ := pr
        cases r1 with
        | some nn =>
          dsimp only
          by_cases hn : nn = 0
          · have hc : c = ESC := by
              rcases pre_consumed hp with ⟨h1, -⟩ | h1
              · exact h1
              · omega
            subst hc
            have h10 := hesc 0 (by simp) rfl
            simp only [List.length_cons] at h10
            rw [if_pos hn, if_pos hn,
              if_neg (show ¬((rest ++ b).length + 1 ≤ 7) from by
                simp only [List.length_append]; omega),
              if_neg (show ¬(rest.length + 1 ≤ 7) from by omega)]
            exact ih rest t1 (by omega) (noLateEsc_drop hesc 1)
          · have hnle : nn ≤ rest.length + 1 := by
              rcases pre_consumed hp with ⟨hcesc, h10⟩ | h1
              · subst hcesc
                have := hesc 0 (by simp) rfl
                simp only [List.length_cons] at this
                omega
              · omega
            rw [if_neg hn, if_neg hn]
            have hdrop : (c :: (rest ++ b)).drop nn = (c :: rest).drop nn ++ b := by
              rw [← List.cons_append]
              exact List.drop_append_of_le_length (by
                simp only [List.length_cons]; omega)
            rw [hdrop]
            exact ih _ t1 (by rw [List.length_drop, List.length_cons]; omega)
              (noLateEsc_drop hesc nn)
        | none =>
          dsimp only
          cases hq : Terminal.puts t [c] true with
          | none => rfl
          | some t2 => exact ih rest t2 (by omega) (noLateEsc_drop hesc 1)

lemma append_pending_empty {t : Term} (hp : t.pending = []) (d : List Char) :
    VT100.append t d = loopF d.length t d := by
  simp only [VT100.append]
  rw [hp, List.nil_append]
  congr 1
  rw [← hp]

lemma append_shape {t u : Term} (hs : Shape t) {d : List Char}
    (h : VT100.append t d = some u) : Shape u := by
  simp only [VT100.append] at h
  exact (pres_loopF _ { t with pending := [] } _ u hs h).1

lemma append_split {t : Term} (hs : Shape t) (hp : t.pending = []) {f b : List Char}
    (hesc : NoLateEsc f) :
    VT100.append t (f ++ b) = (VT100.append t f).bind fun u => VT100.append u b := by
  rw [append_pending_empty hp, append_pending_empty hp, List.length_append]
  rw [loopF_split b f.length f t (le_refl _) hesc]
  cases hq : loopF f.length t f with
  | none => rfl
  | some u =>
    rw [Option.some_bind, Option.some_bind]
    have hu : u.pending = [] := (loopF_pending f.length f t u hs hesc hq).trans hp
    rw [append_pending_empty hu]

/-- Feeding the fragments of `fs` to `append` one call at a time (the
chunked-delivery scenario of the spec: each call scans, possibly defers a
trailing partial sequence, and the next call resumes). -/
def appendChunks (t : Term) : List (List Char) → Option Term
  | [] => some t
  | f :: rest => (VT100.append t f).bind fun u => appendChunks u rest

lemma appendChunks_flatten :
    ∀ (fs : List (List Char)) (t : Term), Shape t → t.pending = [] →
      (∀ f ∈ fs.dropLast, NoLateEsc f) →
      appendChunks t fs = VT100.append t fs.flatten := by
  intro fs
  induction fs with
  | nil =>
    intro t _ hp _
    simp only [appendChunks, List.flatten_nil]
    rw [append_pending_empty hp]
    rfl
  | cons f rest ih =>
    intro t hs hp hesc
    cases rest with
    | nil =>
      simp only [appendChunks, List.flatten_cons, List.flatten_nil, List.append_nil]
      cases hq : VT100.append t f with
      | none => rfl
      | some u => rw [Option.some_bind]
    | cons g rest2 =>
      have hdl : (f :: g :: rest2).dropLast = f :: (g :: rest2).dropLast := rfl
      have hescf : NoLateEsc f := hesc f (by rw [hdl]; exact List.mem_cons_self _ _)
      have hesc2 : ∀ x ∈ (g :: rest2).dropLast, NoLateEsc x := fun x hx =>
        hesc x (by rw [hdl]; exact List.mem_cons_of_mem _ hx)
      simp only [appendChunks, List.flatten_cons]
      rw [append_split hs hp hescf]
      cases hq : VT100.append t f with
      | none => rfl
      | some u =>
        rw [Option.some_bind, Option.some_bind]
        have hu : u.pending = [] := by
          rw [append_pending_empty hp] at hq
          exact (loopF_pending f.length f t u hs hescf hq).trans hp
        exact ih u (append_shape hs hq) hu hesc2

/-- C4.  The chunking-homomorphism claim, corrected: feeding fragments
`f1..fn` through successive `append` calls matches one `append` of the
concatenation for a well-formed terminal with no pending residue, PROVIDED
every non-final fragment keeps a full 9-character lookahead after each
escape introducer it contains (`NoLateEsc`).  The unconditional claim is
false: `append` defers an unfinished tail only when fewer than 8
characters remain, while `sequence` looks ahead up to 9, so a split that
cuts an escape sequence 8 characters after its `ESC` is mis-scanned
instead of deferred (see the counterexample). -/
theorem c4_chunking_amended (t : Term) (fs : List (List Char)) (hs : Shape t)
    (hp : t.pending = []) (hesc : ∀ f ∈ fs.dropLast, NoLateEsc f) :
    appendChunks t fs = VT100.append t fs.flatten :=
  appendChunks_flatten fs t hs hp hesc

/-- Witness for C4: on a fresh 3x2 terminal, delivering
`"\x1b[5Cwxyzuv"` then `"q"` in two calls equals one call with the
concatenation (the first fragment contains an escape sequence but keeps
its full lookahead inside the fragment). -/
theorem c4_chunking_amended_witness :
    Shape (VT100.new 3 2) ∧ (VT100.new 3 2).pending = [] ∧
      (∀ f ∈ ([[ESC, '[', '5', 'C', 'w', 'x', 'y', 'z', 'u', 'v'], ['q']] :
        List (List Char)).dropLast, NoLateEsc f) ∧
      appendChunks (VT100.new 3 2) [[ESC, '[', '5', 'C', 'w', 'x', 'y', 'z', 'u', 'v'], ['q']] =
        VT100.append (VT100.new 3 2)
          ([[ESC, '[', '5', 'C', 'w', 'x', 'y', 'z', 'u', 'v'], ['q']] :
            List (List Char)).flatten :=
  ⟨by decide, by decide, by decide,
    c4_chunking_amended (VT100.new 3 2)
      [[ESC, '[', '5', 'C', 'w', 'x', 'y', 'z', 'u', 'v'], ['q']]
      (by decide) (by decide) (by decide)⟩
